import Mathlib

/-!
# conveer: a record pipeline (Reader → Filter / Copier / Sender)

Shallow embedding of `src/conveer.cpp`.

* `std::string` is a list of characters.
* A `std::istream` is its unread characters together with its `eofbit`, `failbit` and
  `badbit`; `std::getline` follows the standard: the sentry fails on a stream that is not
  `good()`, the delimiter is extracted and discarded, reaching the end sets `eofbit`, and
  extracting nothing sets `failbit`.
* A `std::ostream` is the text written to it so far (a stream in a good state).
* Stream references (`istream&`, `ostream&`) are indices into a store of streams, so two
  stages may hold the same stream.  Input streams and output streams are separate objects.
* `unique_ptr<Worker>` is `Option Worker`; the `next` member is a constructor field.
* `throw logic_error(...)` is the outcome `Outcome.logic_error`, carrying the state at the
  point of the throw; an exception leaving `Process` propagates through every caller.
* A `Filter::Function` is a pure total function `Email → Bool`.
* The `while` loop of `Reader::Run` takes a bound on the number of iterations; `none`
  means that the bound was reached before the loop ended.
-/

namespace Conveer

/-- The type `std::string`. -/
abbrev string := List Char

/-- The record `struct Email`. -/
structure Email where
  from_ : string
  to_ : string
  body : string
deriving DecidableEq

/-! ## Streams -/

/-- State of a `std::istream`: the characters not yet extracted and the state flags. -/
structure istream where
  buf : List Char
  eofbit : Bool
  failbit : Bool
  badbit : Bool
deriving DecidableEq

/-- The member `good()`: no state flag is set. -/
def istream.good (s : istream) : Bool := !s.eofbit && !s.failbit && !s.badbit

/-- The member `fail()`: `failbit` or `badbit` is set. -/
def istream.fail (s : istream) : Bool := s.failbit || s.badbit

/-- The conversion `explicit operator bool()`, which is `!fail()`. -/
def istream.toBool (s : istream) : Bool := !s.fail

/-- A freshly constructed `istringstream` over `text`. -/
def istringstream (text : string) : istream :=
  { buf := text, eofbit := false, failbit := false, badbit := false }

/-- Character extraction of `getline`: the characters before the first newline, the
characters after it, and whether the end of the buffer was reached before a newline. -/
def extractLine : List Char → string × List Char × Bool
  | [] => ([], [], true)
  | c :: cs =>
    if c = '\n' then ([], cs, false)
    else
      match extractLine cs with
      | (line, rest, eof) => (c :: line, rest, eof)

/-- The call `getline(input, str)`: the new stream state and the new value of `str`.
When the sentry fails `str` is left alone and `failbit` is set.  Otherwise `str` is
replaced by the extracted line; `failbit` is set when no character at all was extracted
(the delimiter counts as extracted), which happens exactly on an empty buffer. -/
def getline (input : istream) (str : string) : istream × string :=
  if input.good then
    match extractLine input.buf with
    | (line, rest, eof) =>
      ({ buf := rest, eofbit := eof, failbit := input.buf.isEmpty, badbit := false }, line)
  else
    ({ input with failbit := true }, str)

/-- State of a `std::ostream`: the text written so far. -/
abbrev ostream := List Char

/-- The output streams, by reference. -/
abbrev Outs := Nat → ostream

/-- Both stores of streams: what `Run` may touch. -/
structure World where
  ins : Nat → istream
  outs : Outs

/-- How a call ends: it returns, or a `logic_error` leaves it.  Both carry the state. -/
inductive Outcome (σ : Type) where
  | returned (s : σ)
  | logic_error (what : String) (s : σ)

/-- The state an outcome carries. -/
def Outcome.state {σ : Type} : Outcome σ → σ
  | .returned s => s
  | .logic_error _ s => s

/-- Whether the call returned normally. -/
def Outcome.isReturned {σ : Type} : Outcome σ → Bool
  | .returned _ => true
  | .logic_error _ _ => false

/-- Change of the carried state. -/
def Outcome.mapState {σ τ : Type} (f : σ → τ) : Outcome σ → Outcome τ
  | .returned s => .returned (f s)
  | .logic_error what s => .logic_error what (f s)

/-- The statement `output << s << endl`. -/
def writeLine (o : Outs) (output : Nat) (s : string) : Outs :=
  Function.update o output (o output ++ s ++ ['\n'])

/-! ## Workers -/

/-- The class `Worker` with its four subclasses.  The inherited member `next` is the
last field of every constructor. -/
inductive Worker where
  | Reader (input : Nat) (next : Option Worker)
  | Filter (func : Email → Bool) (next : Option Worker)
  | Copier (to_ : string) (next : Option Worker)
  | Sender (output : Nat) (next : Option Worker)

/-- The member `next`. -/
def Worker.next : Worker → Option Worker
  | .Reader _ next => next
  | .Filter _ next => next
  | .Copier _ next => next
  | .Sender _ next => next

/-- The method `Worker::SetNext`. -/
def Worker.SetNext : Worker → Option Worker → Worker
  | .Reader input _, next => .Reader input next
  | .Filter func _, next => .Filter func next
  | .Copier to_ _, next => .Copier to_ next
  | .Sender output _, next => .Sender output next

mutual
/-- The virtual method `Process` of the four subclasses. -/
def Worker.Process : Worker → Email → Outs → Outcome Outs
  | .Reader _ _, _, o => .logic_error "Unimplemented" o
  | .Filter func next, email, o =>
    if func email then PassOn next email o else .returned o
  | .Copier to_ next, email, o =>
    if email.to_ = to_ then PassOn next email o
    else
      let new_email : Email := { email with to_ := to_ }
      match PassOn next email o with
      | .returned o1 => PassOn next new_email o1
      | .logic_error what o1 => .logic_error what o1
  | .Sender output next, email, o =>
    let o1 := writeLine o output email.from_
    let o2 := writeLine o1 output email.to_
    let o3 := writeLine o2 output email.body
    PassOn next email o3
/-- The method `Worker::PassOn`, given the member `next`. -/
def PassOn : Option Worker → Email → Outs → Outcome Outs
  | none, _, o => .returned o
  | some n, email, o => n.Process email o
end

/-- The loop of `Reader::Run` on the stream `input`, at most `fuel` iterations. -/
def Reader.RunLoop (next : Option Worker) : Nat → istream → Outs → Option (istream × Outcome Outs)
  | fuel, input, o =>
    if input.toBool then
      match fuel with
      | 0 => none
      | fuel + 1 =>
        let email : Email := { from_ := [], to_ := [], body := [] }
        match getline input email.from_ with
        | (in1, from_) =>
          if in1.toBool then
            match getline in1 email.to_ with
            | (in2, to_) =>
              if in2.toBool then
                match getline in2 email.body with
                | (in3, body) =>
                  if in3.toBool then
                    match PassOn next { from_ := from_, to_ := to_, body := body } o with
                    | .returned o1 => Reader.RunLoop next fuel in3 o1
                    | .logic_error what o1 => some (in3, .logic_error what o1)
                  else Reader.RunLoop next fuel in3 o
              else Reader.RunLoop next fuel in2 o
          else Reader.RunLoop next fuel in1 o
    else some (input, .returned o)

/-- The virtual method `Run`: the loop for a `Reader`, `logic_error` for the others. -/
def Worker.Run : Worker → Nat → World → Option (Outcome World)
  | .Reader input next, fuel, w =>
    match Reader.RunLoop next fuel (w.ins input) w.outs with
    | none => none
    | some (s, r) => some (r.mapState fun o => { ins := Function.update w.ins input s, outs := o })
  | .Filter _ _, _, w => some (.logic_error "Unimplemented" w)
  | .Copier _ _, _, w => some (.logic_error "Unimplemented" w)
  | .Sender _ _, _, w => some (.logic_error "Unimplemented" w)

/-! ## The builder -/

/-- The class `PipelineBuilder`: the list `workers` of owning pointers. -/
structure PipelineBuilder where
  workers : List (Option Worker)

/-- The constructor `PipelineBuilder(istream& in)`. -/
def PipelineBuilder.new (in_ : Nat) : PipelineBuilder :=
  { workers := [some (.Reader in_ none)] }

/-- The method `FilterBy`. -/
def PipelineBuilder.FilterBy (b : PipelineBuilder) (filter : Email → Bool) : PipelineBuilder :=
  { workers := b.workers ++ [some (.Filter filter none)] }

/-- The method `CopyTo`. -/
def PipelineBuilder.CopyTo (b : PipelineBuilder) (recipient : string) : PipelineBuilder :=
  { workers := b.workers ++ [some (.Copier recipient none)] }

/-- The method `Send`. -/
def PipelineBuilder.Send (b : PipelineBuilder) (out : Nat) : PipelineBuilder :=
  { workers := b.workers ++ [some (.Sender out none)] }

/-- The loop of `Build`, walking the list backwards.  `todo` holds the elements not yet
visited, nearest first; `prev` is the element `*prev(it)`; `done` holds the elements
behind it.  Dereferencing a null `*it` is undefined behaviour, rendered as `none`. -/
def PipelineBuilder.BuildLoop :
    List (Option Worker) → Option Worker → List (Option Worker) → Option (List (Option Worker))
  | [], prev, done => some (prev :: done)
  | none :: _, _, _ => none
  | some it :: todo, prev, done =>
    PipelineBuilder.BuildLoop todo (some (it.SetNext prev)) (none :: done)

/-- The method `Build`: the returned pointer and the builder left behind.  `none` stands
for undefined behaviour (a null pointer dereferenced, or an empty list). -/
def PipelineBuilder.Build (b : PipelineBuilder) : Option (Option Worker × PipelineBuilder) :=
  match b.workers.reverse with
  | [] => none
  | last :: todo =>
    match PipelineBuilder.BuildLoop todo last [] with
    | some (front :: rest) => some (front, { workers := none :: rest })
    | _ => none

/-- The statements `auto pipeline = builder.Build(); pipeline->Run();` of a caller, the
loop bounded by `fuel`.  Calling `Run` through a null pointer is undefined behaviour,
rendered as `none` like the undefined behaviour of `Build`. -/
def PipelineBuilder.BuildAndRun (b : PipelineBuilder) (fuel : Nat) (w : World) :
    Option (Outcome World) :=
  match b.Build with
  | some (some pipeline, _) => pipeline.Run fuel w
  | _ => none

/-- The streams of a caller that has just constructed them: every input stream is an
`istringstream` over `text`, every output stream is empty. -/
def World.fresh (text : string) : World :=
  { ins := fun _ => istringstream text, outs := fun _ => [] }

/-- The string `input` of `TestSanity`. -/
def TestSanity.input : string :=
  ("erich@example.com\n"
    ++ "richard@example.com\n"
    ++ "Hello there\n"
    ++ "erich@example.com\n"
    ++ "ralph@example.com\n"
    ++ "Are you sure you pressed the right button?\n"
    ++ "ralph@example.com\n"
    ++ "erich@example.com\n"
    ++ "I do not make mistakes of that kind\n").toList

/-- The string `expectedOutput` of `TestSanity`. -/
def TestSanity.expectedOutput : string :=
  ("erich@example.com\n"
    ++ "richard@example.com\n"
    ++ "Hello there\n"
    ++ "erich@example.com\n"
    ++ "ralph@example.com\n"
    ++ "Are you sure you pressed the right button?\n"
    ++ "erich@example.com\n"
    ++ "richard@example.com\n"
    ++ "Are you sure you pressed the right button?\n").toList

/-- The function `TestSanity` up to its assertion: the pipeline it builds over `input`,
run with at most `fuel` iterations, and the text `outStream.str()` at the end.  The input
stream is stream `0` of the inputs, the output stream is stream `0` of the outputs. -/
def TestSanity (fuel : Nat) : Option string :=
  let builder := PipelineBuilder.new 0
  let builder := builder.FilterBy fun email => email.from_ = "erich@example.com".toList
  let builder := builder.CopyTo "richard@example.com".toList
  let builder := builder.Send 0
  match builder.BuildAndRun fuel (World.fresh TestSanity.input) with
  | some (.returned w) => some (w.outs 0)
  | _ => none

/-! ## Vocabulary of the specification -/

/-- The lines of a text: the pieces between newlines; a last piece without a newline is
a line when it is not empty. -/
def feedLines : List Char → List string
  | [] => []
  | c :: cs =>
    if c = '\n' then [] :: feedLines cs
    else
      match feedLines cs with
      | [] => [[c]]
      | line :: rest => (c :: line) :: rest

/-- The lines a stream can still deliver. -/
def istream.lines (s : istream) : List string :=
  if s.good then feedLines s.buf else []

/-- Whole units of three lines, as records; a trailing partial unit is left out. -/
def records : List string → List Email
  | from_ :: to_ :: body :: rest => { from_ := from_, to_ := to_, body := body } :: records rest
  | _ => []

/-- The three newline-terminated lines of a record. -/
def frame (r : Email) : List Char :=
  r.from_ ++ ['\n'] ++ (r.to_ ++ ['\n']) ++ (r.body ++ ['\n'])

/-- Forwarding a list of records to a successor, one `PassOn` after the other; an
exception leaving one of them ends the sequence. -/
def forwardAll (next : Option Worker) : List Email → Outs → Outcome Outs
  | [], o => .returned o
  | r :: rs, o =>
    match PassOn next r o with
    | .returned o1 => forwardAll next rs o1
    | .logic_error what o1 => .logic_error what o1

/-- The stream state in which the loop of a `Reader` ends on a stream that was readable. -/
def drained : istream :=
  { buf := [], eofbit := true, failbit := true, badbit := false }

/-- A stream as `getline` leaves it or as it is constructed: no `badbit`, and `eofbit`
only with nothing left to read. -/
def istream.regular (s : istream) : Prop :=
  s.badbit = false ∧ (s.eofbit = true → s.buf = [])

mutual
/-- The workers behind a worker, following `next`, nearest first. -/
def Worker.successors : Worker → List Worker
  | .Reader _ next => chainFrom next
  | .Filter _ next => chainFrom next
  | .Copier _ next => chainFrom next
  | .Sender _ next => chainFrom next
/-- The workers of a chain, from its head on. -/
def chainFrom : Option Worker → List Worker
  | none => []
  | some n => n :: n.successors
end

/-- One append call on a builder. -/
inductive Append where
  | FilterBy (filter : Email → Bool)
  | CopyTo (recipient : string)
  | Send (out : Nat)

/-- The worker an append call constructs. -/
def Append.stage : Append → Worker
  | .FilterBy filter => .Filter filter none
  | .CopyTo recipient => .Copier recipient none
  | .Send out => .Sender out none

/-- An append call made on a builder. -/
def PipelineBuilder.append (b : PipelineBuilder) : Append → PipelineBuilder
  | .FilterBy filter => b.FilterBy filter
  | .CopyTo recipient => b.CopyTo recipient
  | .Send out => b.Send out

/-- A builder constructed over the stream `in_`, after the append calls `ops` in order. -/
def PipelineBuilder.declare (in_ : Nat) (ops : List Append) : PipelineBuilder :=
  ops.foldl PipelineBuilder.append (PipelineBuilder.new in_)

/-- Workers linked front to back: each is given the rest of the list as its `next`. -/
def assemble : List Worker → Option Worker
  | [] => none
  | w :: ws => some (w.SetNext (assemble ws))

/-- The records that come out of a run of declared stages for one record going in,
in the order in which they come out. -/
def arrive : List Append → Email → List Email
  | [], r => [r]
  | .FilterBy filter :: rest, r => if filter r then arrive rest r else []
  | .CopyTo recipient :: rest, r =>
    if r.to_ = recipient then arrive rest r
    else arrive rest r ++ arrive rest { r with to_ := recipient }
  | .Send _ :: rest, r => arrive rest r

/-- The writes that a run of declared stages makes for one record going in, in the order
in which they happen: the output stream and the record written. -/
def writes : List Append → Email → List (Nat × Email)
  | [], _ => []
  | .FilterBy filter :: rest, r => if filter r then writes rest r else []
  | .CopyTo recipient :: rest, r =>
    if r.to_ = recipient then writes rest r
    else writes rest r ++ writes rest { r with to_ := recipient }
  | .Send out :: rest, r => (out, r) :: writes rest r

/-- The output streams after a sequence of writes. -/
def commit : List (Nat × Email) → Outs → Outs
  | [], o => o
  | (out, r) :: rest, o => commit rest (Function.update o out (o out ++ frame r))

/-- The output streams of the `Send` calls among declared stages. -/
def sinkFeeds : List Append → List Nat
  | [] => []
  | .Send out :: rest => out :: sinkFeeds rest
  | _ :: rest => sinkFeeds rest

/-- Workers linked front to back onto a chain that is already there. -/
def assembleOnto : List Worker → Option Worker → Option Worker
  | [], tail => tail
  | w :: ws, tail => some (w.SetNext (assembleOnto ws tail))

/-- The text that a sequence of writes adds to the output stream `i`. -/
def textFor (i : Nat) (tr : List (Nat × Email)) : List Char :=
  (tr.filter fun p => p.1 = i).flatMap fun p => frame p.2

/-- The worker is a `Reader`, the Source of a chain. -/
def Worker.isReader : Worker → Bool
  | .Reader _ _ => true
  | _ => false

/-- The writes of `writes`, each with the stages declared before the `Send` stage that
makes it; `before` holds the stages declared before `ops`. -/
def writesAfter : List Append → List Append → Email → List (List Append × Nat × Email)
  | _, [], _ => []
  | before, .FilterBy filter :: rest, r =>
    if filter r then writesAfter (before ++ [.FilterBy filter]) rest r else []
  | before, .CopyTo recipient :: rest, r =>
    if r.to_ = recipient then writesAfter (before ++ [.CopyTo recipient]) rest r
    else writesAfter (before ++ [.CopyTo recipient]) rest r
      ++ writesAfter (before ++ [.CopyTo recipient]) rest { r with to_ := recipient }
  | before, .Send out :: rest, r =>
    (before, out, r) :: writesAfter (before ++ [.Send out]) rest r

/-- The records a `Copier` with target `t` forwards for the record `r`. -/
def duplicated (t : string) (r : Email) : List Email :=
  if r.to_ = t then [r] else [r, { r with to_ := t }]

/-! ## Reading lines -/

theorem extractLine_cons_ne (c : Char) (cs : List Char) (h : c ≠ '\n') :
    extractLine (c :: cs)
      = (c :: (extractLine cs).1, (extractLine cs).2.1, (extractLine cs).2.2) := by
  rw [extractLine, if_neg h]

theorem extractLine_feedLines (c : Char) (cs : List Char) :
    feedLines (c :: cs) = (extractLine (c :: cs)).1 :: feedLines (extractLine (c :: cs)).2.1
      ∧ ((extractLine (c :: cs)).2.2 = true → (extractLine (c :: cs)).2.1 = []) := by
  induction cs generalizing c with
  | nil =>
    by_cases h : c = '\n' <;> simp [feedLines, extractLine, h]
  | cons d ds ih =>
    by_cases h : c = '\n'
    · simp [feedLines, extractLine, h]
    · have ih1 := (ih d).1
      have ih2 := (ih d).2
      rw [extractLine_cons_ne c (d :: ds) h]
      rw [feedLines, if_neg h, ih1]
      exact ⟨rfl, ih2⟩

theorem lines_of_not_toBool (s : istream) (h : s.toBool = false) : s.lines = [] := by
  have : s.good = false := by
    simp only [istream.toBool, istream.fail, istream.good] at *
    cases hf : s.failbit <;> cases hb : s.badbit <;> simp_all
  simp [istream.lines, this]

theorem good_of_lines_cons (s : istream) (l : string) (ls : List string)
    (hl : s.lines = l :: ls) : s.good = true ∧ feedLines s.buf = l :: ls := by
  unfold istream.lines at hl
  by_cases hg : s.good = true
  · rw [if_pos hg] at hl
    exact ⟨hg, hl⟩
  · rw [if_neg hg] at hl
    cases hl

theorem feedLines_eq_nil (cs : List Char) (h : feedLines cs = []) : cs = [] := by
  cases cs with
  | nil => rfl
  | cons c cs =>
    rw [(extractLine_feedLines c cs).1] at h
    cases h

/-- A failing `getline`: on a readable stream that has no line left. -/
theorem getline_none (s : istream) (str : string) (h : s.toBool = true) (hr : s.regular)
    (hl : s.lines = []) : (getline s str).1 = drained := by
  obtain ⟨buf, e, f, b⟩ := s
  obtain ⟨hb, he⟩ := hr
  simp only at hb he
  subst hb
  have hf : f = false := by
    simpa [istream.toBool, istream.fail] using h
  subst hf
  cases e with
  | true =>
    have hbuf : buf = [] := he rfl
    subst hbuf
    simp [getline, istream.good, drained]
  | false =>
    have hbuf : buf = [] := by
      apply feedLines_eq_nil
      simpa [istream.lines, istream.good] using hl
    subst hbuf
    simp [getline, istream.good, drained, extractLine]

/-- A succeeding `getline`: on a stream that has a line left. -/
theorem getline_some (s : istream) (str : string) (l : string) (ls : List string)
    (hl : s.lines = l :: ls) :
    (getline s str).2 = l ∧ (getline s str).1.toBool = true ∧ (getline s str).1.regular
      ∧ (getline s str).1.lines = ls := by
  obtain ⟨hg, hfl⟩ := good_of_lines_cons s l ls hl
  cases hbuf : s.buf with
  | nil => rw [hbuf] at hfl; cases hfl
  | cons c cs =>
    rw [hbuf] at hfl
    obtain ⟨h1, h2⟩ := extractLine_feedLines c cs
    rw [h1] at hfl
    injection hfl with hhd htl
    have hget : getline s str
        = ({ buf := (extractLine (c :: cs)).2.1, eofbit := (extractLine (c :: cs)).2.2,
             failbit := false, badbit := false }, (extractLine (c :: cs)).1) := by
      simp [getline, hg, hbuf]
    rw [hget]
    refine ⟨hhd, by simp [istream.toBool, istream.fail], ⟨rfl, h2⟩, ?_⟩
    cases he : (extractLine (c :: cs)).2.2 with
    | false => simpa [istream.lines, istream.good] using htl
    | true =>
      have hnil := h2 he
      rw [hnil] at htl
      simp only [feedLines] at htl
      simp [istream.lines, istream.good, ← htl]

/-! ## The loop of the reader -/

theorem records_cons_inv (ls : List string) (r : Email) (rs : List Email)
    (h : records ls = r :: rs) :
    ∃ l1 l2 l3 rest, ls = l1 :: l2 :: l3 :: rest
      ∧ r = { from_ := l1, to_ := l2, body := l3 } ∧ rs = records rest := by
  match ls, h with
  | [], h => simp [records] at h
  | [_], h => simp [records] at h
  | [_, _], h => simp [records] at h
  | l1 :: l2 :: l3 :: rest, h =>
    simp only [records, List.cons.injEq] at h
    exact ⟨l1, l2, l3, rest, rfl, h.1.symm, h.2.symm⟩

theorem RunLoop_of_not_toBool (next : Option Worker) (fuel : Nat) (s : istream) (o : Outs)
    (h : s.toBool = false) : Reader.RunLoop next fuel s o = some (s, .returned o) := by
  cases fuel <;> simp [Reader.RunLoop, h]

theorem RunLoop_succ (next : Option Worker) (fuel : Nat) (s : istream) (o : Outs)
    (h : s.toBool = true) :
    Reader.RunLoop next (fuel + 1) s o =
      if (getline s []).1.toBool then
        if (getline (getline s []).1 []).1.toBool then
          if (getline (getline (getline s []).1 []).1 []).1.toBool then
            match PassOn next
                { from_ := (getline s []).2, to_ := (getline (getline s []).1 []).2,
                  body := (getline (getline (getline s []).1 []).1 []).2 } o with
            | .returned o1 =>
              Reader.RunLoop next fuel (getline (getline (getline s []).1 []).1 []).1 o1
            | .logic_error what o1 =>
              some ((getline (getline (getline s []).1 []).1 []).1, .logic_error what o1)
          else Reader.RunLoop next fuel (getline (getline (getline s []).1 []).1 []).1 o
        else Reader.RunLoop next fuel (getline (getline s []).1 []).1 o
      else Reader.RunLoop next fuel (getline s []).1 o := by
  rw [Reader.RunLoop, if_pos h]

theorem drained_toBool : drained.toBool = false := by decide

/-- One iteration that finds no whole unit ends the loop with the stream drained. -/
theorem RunLoop_no_unit (next : Option Worker) (fuel : Nat) (s : istream) (o : Outs)
    (h : s.toBool = true) (hr : s.regular) (hl : records s.lines = []) :
    Reader.RunLoop next (fuel + 1) s o = some (drained, .returned o) := by
  rw [RunLoop_succ next fuel s o h]
  have hd := RunLoop_of_not_toBool next fuel drained o drained_toBool
  cases hl1 : s.lines with
  | nil =>
    rw [getline_none s [] h hr hl1]
    simp [drained_toBool, hd]
  | cons l1 t1 =>
    obtain ⟨-, hb1, hr1, hls1⟩ := getline_some s [] l1 t1 hl1
    rw [if_pos hb1]
    cases t1 with
    | nil =>
      rw [getline_none _ [] hb1 hr1 hls1]
      simp [drained_toBool, hd]
    | cons l2 t2 =>
      obtain ⟨-, hb2, hr2, hls2⟩ := getline_some _ [] l2 t2 hls1
      rw [if_pos hb2]
      cases t2 with
      | nil =>
        rw [getline_none _ [] hb2 hr2 hls2]
        simp [drained_toBool, hd]
      | cons l3 t3 =>
        rw [hl1] at hl
        simp [records] at hl

/-- The loop of the reader forwards the whole units of the stream, in order, and leaves
the stream drained when no forwarding raised. -/
theorem RunLoop_spec (next : Option Worker) (fuel : Nat) (s : istream) (o : Outs)
    (hr : s.regular) (hfuel : (records s.lines).length < fuel) :
    ∃ s1, Reader.RunLoop next fuel s o = some (s1, forwardAll next (records s.lines) o)
      ∧ (s.toBool = true → (forwardAll next (records s.lines) o).isReturned = true
          → s1 = drained) := by
  induction fuel generalizing s o with
  | zero => omega
  | succ fuel ih =>
    by_cases h : s.toBool = true
    · cases hrec : records s.lines with
      | nil =>
        refine ⟨drained, ?_, fun _ _ => rfl⟩
        rw [RunLoop_no_unit next fuel s o h hr hrec]
        rfl
      | cons r rs =>
        obtain ⟨l1, l2, l3, rest, hl, hr0, hrs⟩ := records_cons_inv s.lines r rs hrec
        obtain ⟨hv1, hb1, -, hls1⟩ := getline_some s [] l1 _ hl
        obtain ⟨hv2, hb2, -, hls2⟩ := getline_some _ [] l2 _ hls1
        obtain ⟨hv3, hb3, hr3, hls3⟩ := getline_some _ [] l3 _ hls2
        rw [RunLoop_succ next fuel s o h, if_pos hb1, if_pos hb2, if_pos hb3, hv1, hv2, hv3]
        subst hr0
        rw [forwardAll]
        cases hp : PassOn next { from_ := l1, to_ := l2, body := l3 } o with
        | returned o1 =>
          have hlt : (records (getline (getline (getline s []).1 []).1 []).1.lines).length
              < fuel := by
            rw [hls3, ← hrs]
            rw [hrec] at hfuel
            simp only [List.length_cons] at hfuel
            omega
          obtain ⟨s1, he, hd⟩ := ih _ o1 hr3 hlt
          rw [hls3, ← hrs] at he hd
          exact ⟨s1, he, fun _ hret => hd hb3 hret⟩
        | logic_error what o1 =>
          exact ⟨_, rfl, fun _ hret => by simp [Outcome.isReturned] at hret⟩
    · have h0 : s.toBool = false := by simpa using h
      refine ⟨s, ?_, fun h1 => absurd h1 h⟩
      rw [RunLoop_of_not_toBool next _ s o h0, lines_of_not_toBool s h0]
      rfl

theorem records_length (ls : List string) : (records ls).length = ls.length / 3 := by
  match ls with
  | [] => rfl
  | [_] => simp [records]
  | [_, _] => simp [records]
  | _ :: _ :: _ :: rest =>
    simp only [records, List.length_cons, records_length rest]
    omega

theorem records_getElem? (ls : List string) (k : Nat) (hk : k < ls.length / 3) :
    ∃ l1 l2 l3, ls[3 * k]? = some l1 ∧ ls[3 * k + 1]? = some l2 ∧ ls[3 * k + 2]? = some l3
      ∧ (records ls)[k]? = some { from_ := l1, to_ := l2, body := l3 } := by
  match ls, k with
  | [], _ => simp at hk
  | [_], _ => simp only [List.length_cons, List.length_nil] at hk; omega
  | [_, _], _ => simp only [List.length_cons, List.length_nil] at hk; omega
  | l1 :: l2 :: l3 :: rest, 0 => exact ⟨l1, l2, l3, by simp, by simp, by simp, by simp [records]⟩
  | l1 :: l2 :: l3 :: rest, k + 1 =>
    have hk1 : k < rest.length / 3 := by
      simp only [List.length_cons] at hk
      omega
    obtain ⟨a, b, c, ha, hb, hc, hr⟩ := records_getElem? rest k hk1
    refine ⟨a, b, c, ?_, ?_, ?_, ?_⟩
    · rw [show 3 * (k + 1) = (3 * k) + 1 + 1 + 1 by ring]
      simpa using ha
    · rw [show 3 * (k + 1) + 1 = (3 * k + 1) + 1 + 1 + 1 by ring]
      simpa using hb
    · rw [show 3 * (k + 1) + 2 = (3 * k + 2) + 1 + 1 + 1 by ring]
      simpa using hc
    · simpa [records] using hr

theorem istringstream_regular (text : string) : (istringstream text).regular :=
  ⟨rfl, fun h => by simp [istringstream] at h⟩

theorem istringstream_lines (text : string) : (istringstream text).lines = feedLines text := rfl

theorem istringstream_toBool (text : string) : (istringstream text).toBool = true := rfl

/-- The run of a reader over a fresh stream, for every successor. -/
theorem Run_Reader (input : Nat) (next : Option Worker) (fuel : Nat) (w : World)
    (text : string) (hin : w.ins input = istringstream text)
    (hfuel : (feedLines text).length / 3 < fuel) :
    ∃ s1, (Worker.Reader input next).Run fuel w
        = some ((forwardAll next (records (feedLines text)) w.outs).mapState
            fun o => { ins := Function.update w.ins input s1, outs := o })
      ∧ ((forwardAll next (records (feedLines text)) w.outs).isReturned = true
          → s1 = drained) := by
  have hlt : (records (istringstream text).lines).length < fuel := by
    rw [istringstream_lines, records_length]
    exact hfuel
  obtain ⟨s1, he, hd⟩ :=
    RunLoop_spec next fuel (istringstream text) w.outs (istringstream_regular text) hlt
  refine ⟨s1, ?_, fun h => hd (istringstream_toBool text) h⟩
  rw [Worker.Run, hin, he]
  rfl

/-! ## The builder links the declared stages -/

theorem assembleOnto_append (a b : List Worker) (tail : Option Worker) :
    assembleOnto (a ++ b) tail = assembleOnto a (assembleOnto b tail) := by
  induction a with
  | nil => rfl
  | cons w ws ih => simp [assembleOnto, ih]

theorem assembleOnto_none (ws : List Worker) : assembleOnto ws none = assemble ws := by
  induction ws with
  | nil => rfl
  | cons w ws ih => simp [assembleOnto, assemble, ih]

theorem BuildLoop_some (rs : List Worker) (prev : Option Worker) (done : List (Option Worker)) :
    PipelineBuilder.BuildLoop (rs.map some) prev done
      = some (assembleOnto rs.reverse prev :: (List.replicate rs.length none ++ done)) := by
  induction rs generalizing prev done with
  | nil => rfl
  | cons r rs ih =>
    simp only [List.map_cons, PipelineBuilder.BuildLoop, ih, List.reverse_cons,
      assembleOnto_append, assembleOnto, List.length_cons, List.replicate_succ']
    simp

theorem append_workers (b : PipelineBuilder) (a : Append) :
    (b.append a).workers = b.workers ++ [some a.stage] := by
  cases a <;> rfl

theorem declare_workers (in_ : Nat) (ops : List Append) :
    (PipelineBuilder.declare in_ ops).workers
      = (Worker.Reader in_ none :: ops.map Append.stage).map some := by
  have key : ∀ (b : PipelineBuilder),
      (ops.foldl PipelineBuilder.append b).workers
        = b.workers ++ (ops.map Append.stage).map some := by
    induction ops with
    | nil => intro b; simp
    | cons a ops ih =>
      intro b
      simp only [List.foldl_cons, ih, append_workers, List.map_cons, List.append_assoc,
        List.singleton_append]
  rw [PipelineBuilder.declare, key]
  rfl

theorem stage_SetNext_none (a : Append) : a.stage.SetNext none = a.stage := by
  cases a <;> rfl

theorem assemble_append (a b : List Worker) :
    assemble (a ++ b) = assembleOnto a (assemble b) := by
  rw [← assembleOnto_none, assembleOnto_append, assembleOnto_none]

theorem Build_of_workers (ws : List Worker) (x : Worker) (hx : x.SetNext none = x) :
    PipelineBuilder.Build { workers := (ws ++ [x]).map some }
      = some (assemble (ws ++ [x]), { workers := List.replicate (ws.length + 1) none }) := by
  have hrev : ((ws ++ [x]).map some).reverse = some x :: ws.reverse.map some := by simp
  have hloop := BuildLoop_some ws.reverse (some x) []
  rw [List.reverse_reverse, List.length_reverse, List.append_nil] at hloop
  simp only [PipelineBuilder.Build, hrev, hloop]
  rw [assemble_append]
  simp [assemble, hx, List.replicate_succ]

/-- What `Build` returns on a freshly constructed builder after the calls `ops`: the
reader, with the declared stages linked behind it, and a builder holding null pointers. -/
theorem Build_declare (in_ : Nat) (ops : List Append) :
    (PipelineBuilder.declare in_ ops).Build
      = some (some (.Reader in_ (assemble (ops.map Append.stage))),
          { workers := List.replicate (ops.length + 1) none }) := by
  have hw : PipelineBuilder.declare in_ ops
      = { workers := (Worker.Reader in_ none :: ops.map Append.stage).map some } := by
    cases h : PipelineBuilder.declare in_ ops with
    | mk workers =>
      have := declare_workers in_ ops
      rw [h] at this
      simp only at this
      rw [this]
  rw [hw]
  rcases List.eq_nil_or_concat (ops.map Append.stage) with hnil | ⟨init, x, hcat⟩
  · have hops : ops = [] := by simpa using hnil
    subst hops
    exact Build_of_workers [] (.Reader in_ none) rfl
  · have hx : x.SetNext none = x := by
      have hmem : x ∈ ops.map Append.stage := by rw [hcat]; simp
      obtain ⟨a, -, ha⟩ := List.mem_map.mp hmem
      rw [← ha]
      exact stage_SetNext_none a
    have hlen : ops.length = init.length + 1 := by
      have := congrArg List.length hcat
      simpa using this
    have h := Build_of_workers (.Reader in_ none :: init) x hx
    rw [hcat, List.concat_eq_append]
    rw [List.cons_append] at h
    rw [h, hlen]
    simp [assemble, Worker.SetNext]

/-! ## What a chain of declared stages does with a record -/

theorem writeLine_thrice (o : Outs) (output : Nat) (r : Email) :
    writeLine (writeLine (writeLine o output r.from_) output r.to_) output r.body
      = Function.update o output (o output ++ frame r) := by
  funext i
  by_cases h : i = output
  · subst h
    simp [writeLine, frame]
  · simp [writeLine, Function.update_noteq h]

theorem commit_append (a b : List (Nat × Email)) (o : Outs) :
    commit (a ++ b) o = commit b (commit a o) := by
  induction a generalizing o with
  | nil => rfl
  | cons p a ih =>
    obtain ⟨out, r⟩ := p
    simp [commit, ih]

theorem textFor_append (i : Nat) (a b : List (Nat × Email)) :
    textFor i (a ++ b) = textFor i a ++ textFor i b := by
  simp [textFor, List.filter_append, List.flatMap_append]

theorem commit_apply (tr : List (Nat × Email)) (o : Outs) (i : Nat) :
    commit tr o i = o i ++ textFor i tr := by
  induction tr generalizing o with
  | nil => simp [commit, textFor]
  | cons p tr ih =>
    obtain ⟨out, r⟩ := p
    rw [commit, ih]
    by_cases h : out = i
    · subst h
      simp [textFor, List.filter_cons]
    · have h1 : i ≠ out := fun e => h e.symm
      simp [textFor, List.filter_cons, h, Function.update_noteq h1]

/-- A chain of declared stages never raises: a record going in is written where the
`Send` stages say, in the order given by `writes`. -/
theorem PassOn_assemble (ops : List Append) (r : Email) (o : Outs) :
    PassOn (assemble (ops.map Append.stage)) r o = .returned (commit (writes ops r) o) := by
  induction ops generalizing r o with
  | nil => rfl
  | cons a ops ih =>
    cases a with
    | FilterBy filter =>
      simp only [List.map_cons, assemble, Append.stage, Worker.SetNext, PassOn,
        Worker.Process, writes]
      by_cases h : filter r = true
      · simp [h, ih]
      · simp [h, commit]
    | CopyTo recipient =>
      simp only [List.map_cons, assemble, Append.stage, Worker.SetNext, PassOn,
        Worker.Process, writes]
      by_cases h : r.to_ = recipient
      · simp [h, ih]
      · simp [h, ih, commit_append]
    | Send out =>
      simp only [List.map_cons, assemble, Append.stage, Worker.SetNext, PassOn,
        Worker.Process, writes, writeLine_thrice, ih, commit]

theorem forwardAll_assemble (ops : List Append) (rs : List Email) (o : Outs) :
    forwardAll (assemble (ops.map Append.stage)) rs o
      = .returned (commit (rs.flatMap (writes ops)) o) := by
  induction rs generalizing o with
  | nil => rfl
  | cons r rs ih =>
    simp only [forwardAll, PassOn_assemble, ih, List.flatMap_cons, commit_append]

theorem textFor_of_not_mem (ops : List Append) (r : Email) (i : Nat)
    (h : i ∉ sinkFeeds ops) : textFor i (writes ops r) = [] := by
  induction ops generalizing r with
  | nil => rfl
  | cons a ops ih =>
    cases a with
    | FilterBy filter =>
      simp only [sinkFeeds] at h
      by_cases hf : filter r = true
      · simp [writes, hf, ih r h]
      · simp [writes, hf, textFor]
    | CopyTo recipient =>
      simp only [sinkFeeds] at h
      by_cases hc : r.to_ = recipient
      · simp [writes, hc, ih _ h]
      · simp [writes, hc, textFor_append, ih _ h]
    | Send out =>
      simp only [sinkFeeds, List.mem_cons, not_or] at h
      have h1 : out ≠ i := fun e => h.1 e.symm
      have := ih r h.2
      simp only [textFor] at this
      simp [writes, textFor, List.filter_cons, h1, this]

/-- The text a `Send` stage adds to its stream, when no other `Send` stage of the chain
holds that stream: the records that arrive there, framed. -/
theorem textFor_sink (pre post : List Append) (out : Nat) (r : Email)
    (hpre : out ∉ sinkFeeds pre) (hpost : out ∉ sinkFeeds post) :
    textFor out (writes (pre ++ .Send out :: post) r) = (arrive pre r).flatMap frame := by
  induction pre generalizing r with
  | nil =>
    have := textFor_of_not_mem post r out hpost
    simp only [textFor] at this
    simp [writes, arrive, textFor, List.filter_cons, this]
  | cons a pre ih =>
    cases a with
    | FilterBy filter =>
      simp only [sinkFeeds] at hpre
      by_cases hf : filter r = true
      · simp [writes, arrive, hf, ih r hpre]
      · simp [writes, arrive, hf, textFor]
    | CopyTo recipient =>
      simp only [sinkFeeds] at hpre
      by_cases hc : r.to_ = recipient
      · simp [writes, arrive, hc, ih _ hpre]
      · simp [writes, arrive, hc, textFor_append, ih _ hpre]
    | Send out1 =>
      simp only [sinkFeeds, List.mem_cons, not_or] at hpre
      have h1 : out1 ≠ out := fun e => hpre.1 e.symm
      have := ih r hpre.2
      simp only [textFor] at this
      simp [writes, arrive, textFor, List.filter_cons, h1, this]

theorem textFor_flatMap (i : Nat) (rs : List Email) (f : Email → List (Nat × Email)) :
    textFor i (rs.flatMap f) = rs.flatMap fun r => textFor i (f r) := by
  induction rs with
  | nil => rfl
  | cons r rs ih => simp [List.flatMap_cons, textFor_append, ih]

/-- The run of the pipeline that `Build` returns for the declared stages `ops`, over a
fresh input stream: it returns, the input stream is drained, and the output streams hold
the writes of every whole unit of the input, unit after unit. -/
theorem BuildAndRun_declare (in_ : Nat) (ops : List Append) (fuel : Nat) (w : World)
    (text : string) (hin : w.ins in_ = istringstream text)
    (hfuel : (feedLines text).length / 3 < fuel) :
    (PipelineBuilder.declare in_ ops).BuildAndRun fuel w
      = some (.returned
          { ins := Function.update w.ins in_ drained,
            outs := commit ((records (feedLines text)).flatMap (writes ops)) w.outs }) := by
  obtain ⟨s1, he, hd⟩ :=
    Run_Reader in_ (assemble (ops.map Append.stage)) fuel w text hin hfuel
  rw [forwardAll_assemble] at he hd
  rw [PipelineBuilder.BuildAndRun, Build_declare]
  simp only [he, Outcome.mapState, hd rfl]

/-! ## Following the links of a chain -/

theorem successors_eq (w : Worker) : w.successors = chainFrom w.next := by
  cases w <;> simp [Worker.successors, Worker.next]

theorem SetNext_next (w : Worker) (n : Option Worker) : (w.SetNext n).next = n := by
  cases w <;> rfl

theorem SetNext_SetNext (w : Worker) (n m : Option Worker) :
    (w.SetNext n).SetNext m = w.SetNext m := by
  cases w <;> rfl

theorem chainFrom_assemble (ws : List Worker) :
    (chainFrom (assemble ws)).map (fun s => s.SetNext none)
      = ws.map fun s => s.SetNext none := by
  induction ws with
  | nil => simp [assemble, chainFrom]
  | cons w ws ih =>
    simp only [assemble, chainFrom, List.map_cons, successors_eq, SetNext_next,
      SetNext_SetNext, ih]

theorem chain_link (w : Worker) (i : Nat) :
    ((w :: w.successors)[i]?).bind Worker.next = (w :: w.successors)[i + 1]? := by
  induction i generalizing w with
  | zero =>
    rw [successors_eq]
    cases h : w.next with
    | none => simp [chainFrom, h]
    | some n => simp [chainFrom, h]
  | succ i ih =>
    rw [successors_eq]
    cases h : w.next with
    | none => simp [chainFrom]
    | some n =>
      have := ih n
      simpa [chainFrom] using this

theorem records_units (rs : List Email) :
    records (rs.flatMap fun r => [r.from_, r.to_, r.body]) = rs := by
  induction rs with
  | nil => rfl
  | cons r rs ih =>
    rw [List.flatMap_cons]
    show records (r.from_ :: r.to_ :: r.body :: rs.flatMap fun r => [r.from_, r.to_, r.body])
      = r :: rs
    rw [records, ih]

theorem length_units (rs : List Email) :
    (rs.flatMap fun r => [r.from_, r.to_, r.body]).length / 3 = rs.length := by
  rw [← records_length, records_units]

theorem commit_apply_flatMap (ops : List Append) (rs : List Email) (o : Outs) (i : Nat) :
    commit (rs.flatMap (writes ops)) o i
      = o i ++ rs.flatMap fun r => textFor i (writes ops r) := by
  rw [commit_apply, textFor_flatMap]

theorem flatMap_flatMap_frame (rs : List Email) (f : Email → List Email) :
    (rs.flatMap f).flatMap frame = rs.flatMap fun r => (f r).flatMap frame := by
  induction rs with
  | nil => rfl
  | cons r rs ih => simp [List.flatMap_cons, List.flatMap_append, ih]

theorem sinkFeeds_append (a b : List Append) :
    sinkFeeds (a ++ b) = sinkFeeds a ++ sinkFeeds b := by
  induction a with
  | nil => rfl
  | cons x a ih => cases x <;> simp [sinkFeeds, ih]

theorem arrive_append_Send (pre : List Append) (out : Nat) (r : Email) :
    arrive (pre ++ [.Send out]) r = arrive pre r := by
  induction pre generalizing r with
  | nil => rfl
  | cons a pre ih => cases a <;> simp [arrive, ih]

/-- The text a `Send` stage has added to its stream after a whole run, when no other
`Send` stage of the chain holds that stream. -/
theorem commit_sink (pre post : List Append) (out : Nat) (rs : List Email) (o : Outs)
    (hpre : out ∉ sinkFeeds pre) (hpost : out ∉ sinkFeeds post) :
    commit (rs.flatMap (writes (pre ++ .Send out :: post))) o out
      = o out ++ (rs.flatMap (arrive pre)).flatMap frame := by
  rw [commit_apply_flatMap, flatMap_flatMap_frame]
  congr 1
  apply List.flatMap_congr
  intro r _
  exact textFor_sink pre post out r hpre hpost

theorem forwardAll_singleton (next : Option Worker) (r : Email) (o : Outs) :
    forwardAll next [r] o = PassOn next r o := by
  simp only [forwardAll]
  cases PassOn next r o <;> rfl

/-! ## The claims -/

/-- C1: over an input feed made of complete three-line units, the records `rs`, the
pipeline `PipelineBuilder(in).FilterBy(P).CopyTo(t).Send(out).Build()` followed by `Run()`
returns and appends to `out` exactly, for each record `r` of `rs` in order with `P r`,
the three lines of `r` followed by the three lines of its copy addressed to `t` when
`r.to` differs from `t`; records with `P r` false add nothing, and no other output stream
changes.  On the input of `TestSanity` the output is the text `expectedOutput`. -/
theorem C1_filter_copy_send (rs : List Email) (text : string) (P : Email → Bool) (t : string)
    (in_ out fuel : Nat) (w : World)
    (hunits : feedLines text = rs.flatMap fun r => [r.from_, r.to_, r.body])
    (hin : w.ins in_ = istringstream text) (hfuel : rs.length < fuel) :
    (∃ w1, ((((PipelineBuilder.new in_).FilterBy P).CopyTo t).Send out).BuildAndRun fuel w
          = some (.returned w1)
        ∧ w1.outs out = w.outs out ++ (rs.flatMap fun r =>
            if P r then (if r.to_ = t then [r] else [r, { r with to_ := t }])
            else []).flatMap frame
        ∧ ∀ i, i ≠ out → w1.outs i = w.outs i)
      ∧ ∀ fuel1, 4 ≤ fuel1 → TestSanity fuel1 = some TestSanity.expectedOutput := by
  constructor
  · have hlen : (feedLines text).length / 3 < fuel := by
      rw [hunits, length_units]
      exact hfuel
    have hrun := BuildAndRun_declare in_ [.FilterBy P, .CopyTo t, .Send out] fuel w text hin hlen
    refine ⟨_, hrun, ?_, ?_⟩
    · have hsink := fun r => textFor_sink [.FilterBy P, .CopyTo t] [] out r
        (by simp [sinkFeeds]) (by simp [sinkFeeds])
      simp only [List.cons_append, List.nil_append] at hsink
      simp only [commit_apply_flatMap, hsink, hunits, records_units, flatMap_flatMap_frame]
      rfl
    · intro i hi
      have hnot : i ∉ sinkFeeds [.FilterBy P, .CopyTo t, .Send out] := by
        simp [sinkFeeds, hi]
      simp only [commit_apply_flatMap, textFor_of_not_mem _ _ i hnot]
      simp
  · intro fuel1 hfuel1
    have hrun := BuildAndRun_declare 0
      [.FilterBy fun email => email.from_ = "erich@example.com".toList,
        .CopyTo "richard@example.com".toList, .Send 0] fuel1
      (World.fresh TestSanity.input) TestSanity.input rfl
      (lt_of_lt_of_le (by decide) hfuel1)
    have hrun1 : ((((PipelineBuilder.new 0).FilterBy fun email =>
          email.from_ = "erich@example.com".toList).CopyTo
          "richard@example.com".toList).Send 0).BuildAndRun fuel1
          (World.fresh TestSanity.input) = _ := hrun
    unfold TestSanity
    simp only [hrun1]
    congr 1

/-- Witness of C1: one unit `a`, `b`, `c`, every record accepted, copies addressed to `z`. -/
theorem C1_filter_copy_send_witness :
    (feedLines "a\nb\nc\n".toList
        = [({ from_ := ['a'], to_ := ['b'], body := ['c'] } : Email)].flatMap
            fun r => [r.from_, r.to_, r.body])
      ∧ (World.fresh "a\nb\nc\n".toList).ins 0 = istringstream "a\nb\nc\n".toList
      ∧ [({ from_ := ['a'], to_ := ['b'], body := ['c'] } : Email)].length < 2
      ∧ ((∃ w1, ((((PipelineBuilder.new 0).FilterBy fun _ => true).CopyTo ['z']).Send
              0).BuildAndRun 2 (World.fresh "a\nb\nc\n".toList) = some (.returned w1)
            ∧ w1.outs 0 = (World.fresh "a\nb\nc\n".toList).outs 0
                ++ ([({ from_ := ['a'], to_ := ['b'], body := ['c'] } : Email)].flatMap fun r =>
                  if (fun _ => true) r = true then
                    (if r.to_ = ['z'] then [r] else [r, { r with to_ := ['z'] }])
                  else []).flatMap frame
            ∧ ∀ i, i ≠ 0 → w1.outs i = (World.fresh "a\nb\nc\n".toList).outs i)
          ∧ ∀ fuel1, 4 ≤ fuel1 → TestSanity fuel1 = some TestSanity.expectedOutput) :=
  ⟨by decide, rfl, by decide,
    C1_filter_copy_send [{ from_ := ['a'], to_ := ['b'], body := ['c'] }] "a\nb\nc\n".toList
      (fun _ => true) ['z'] 0 0 2 (World.fresh "a\nb\nc\n".toList) (by decide) rfl
      (by decide)⟩

/-- C2: `Filter::Process(R)` forwards `R` to the successor exactly when `P R` holds, then
once and unchanged; when `P R` is false it forwards nothing, writes nothing and returns
normally.  This holds for every successor, also for none. -/
theorem C2_filter_process (P : Email → Bool) (next : Option Worker) (R : Email) (o : Outs) :
    (Worker.Filter P next).Process R o = forwardAll next (if P R then [R] else []) o
      ∧ (Worker.Filter P next).Process R o
        = (if P R then PassOn next R o else .returned o) := by
  by_cases h : P R = true
  · have hf : forwardAll next [R] o = PassOn next R o := by
      simp only [forwardAll]
      cases PassOn next R o <;> rfl
    simp [Worker.Process, h, hf]
  · simp [Worker.Process, h, forwardAll]

/-- C3: `Copier::Process(R)` of a stage with target `t` forwards exactly `R` when `R.to`
equals `t`; otherwise it forwards exactly two records, first `R` itself with its three
fields as they were, then the clone, whose `from` and `body` are those of `R` and whose
`to` is `t`.  Forwarding is sequential, for every successor; behind a chain of declared
stages both records are processed completely, the original before the clone. -/
theorem C3_copier_process (t : string) (next : Option Worker) (R : Email) (o : Outs)
    (ops : List Append) :
    (Worker.Copier t next).Process R o
        = forwardAll next
            (if R.to_ = t then [R] else [R, { from_ := R.from_, to_ := t, body := R.body }]) o
      ∧ (Worker.Copier t (assemble (ops.map Append.stage))).Process R o
        = .returned (commit
            (if R.to_ = t then writes ops R
              else writes ops R ++ writes ops { from_ := R.from_, to_ := t, body := R.body })
            o) := by
  have hf : ∀ (n : Option Worker) (r : Email) (o1 : Outs),
      forwardAll n [r] o1 = PassOn n r o1 := by
    intro n r o1
    simp only [forwardAll]
    cases PassOn n r o1 <;> rfl
  by_cases h : R.to_ = t
  · simp [Worker.Process, h, hf, PassOn_assemble]
  · constructor
    · simp only [Worker.Process, if_neg h]
      rw [forwardAll]
      cases PassOn next R o with
      | returned o1 => simp [hf]
      | logic_error what o1 => rfl
    · simp [Worker.Process, h, PassOn_assemble, commit_append]

/-- C5: after any sequence `ops` of append calls on a freshly constructed builder,
`Build()` returns the Source as head; following `next` from the head visits exactly the
`ops.length` appended stages in declaration order; each visited worker has the following
one as its `next`, and the last one has none. -/
theorem C5_build_links (in_ : Nat) (ops : List Append) :
    ∃ head rest, (PipelineBuilder.declare in_ ops).Build = some (some head, rest)
      ∧ head.SetNext none = .Reader in_ none
      ∧ head.successors.length = ops.length
      ∧ head.successors.map (fun s => s.SetNext none) = ops.map Append.stage
      ∧ ∀ i, ((head :: head.successors)[i]?).bind Worker.next
          = (head :: head.successors)[i + 1]? := by
  have hmap : (Worker.Reader in_ (assemble (ops.map Append.stage))).successors.map
      (fun s => s.SetNext none) = ops.map Append.stage := by
    rw [successors_eq, Worker.next, chainFrom_assemble, List.map_map]
    apply List.map_congr_left
    intro a _
    exact stage_SetNext_none a
  refine ⟨_, _, Build_declare in_ ops, rfl, ?_, hmap, fun i => chain_link _ i⟩
  have := congrArg List.length hmap
  simpa using this

/-- C6: over a fresh input feed of `n` lines, `Reader::Run` forwards exactly `n / 3`
records, in feed order, the `k`-th made of the lines `3k`, `3k+1` and `3k+2`; a trailing
unit of one or two lines gives no record, and the reader itself raises nothing: its run
has the outcome of the forwarding, and with no successor it returns, the stream drained. -/
theorem C6_reader_run (text : string) (input : Nat) (next : Option Worker) (fuel : Nat)
    (w : World) (hin : w.ins input = istringstream text)
    (hfuel : (feedLines text).length / 3 < fuel) :
    ∃ recs s1, recs.length = (feedLines text).length / 3
      ∧ (∀ k, k < (feedLines text).length / 3 →
          ∃ l1 l2 l3, (feedLines text)[3 * k]? = some l1
            ∧ (feedLines text)[3 * k + 1]? = some l2
            ∧ (feedLines text)[3 * k + 2]? = some l3
            ∧ recs[k]? = some { from_ := l1, to_ := l2, body := l3 })
      ∧ (Worker.Reader input next).Run fuel w
          = some ((forwardAll next recs w.outs).mapState
              fun o => { ins := Function.update w.ins input s1, outs := o })
      ∧ ((forwardAll next recs w.outs).isReturned = true → s1 = drained)
      ∧ (Worker.Reader input none).Run fuel w
          = some (.returned { ins := Function.update w.ins input drained, outs := w.outs }) := by
  obtain ⟨s1, he, hd⟩ := Run_Reader input next fuel w text hin hfuel
  refine ⟨records (feedLines text), s1, records_length _, records_getElem? _, he, hd, ?_⟩
  obtain ⟨s2, he2, hd2⟩ := Run_Reader input none fuel w text hin hfuel
  have hret : forwardAll none (records (feedLines text)) w.outs = .returned w.outs := by
    generalize records (feedLines text) = rs
    induction rs with
    | nil => rfl
    | cons r rs ih => simp [forwardAll, PassOn, ih]
  rw [hret] at he2 hd2
  rw [he2, hd2 rfl]
  rfl

/-- Witness of C6: seven lines, hence two records and a trailing line, no successor. -/
theorem C6_reader_run_witness :
    (World.fresh "a\nb\nc\nd\ne\nf\ng".toList).ins 0 = istringstream "a\nb\nc\nd\ne\nf\ng".toList
      ∧ (feedLines "a\nb\nc\nd\ne\nf\ng".toList).length / 3 < 3
      ∧ ∃ recs s1, recs.length = (feedLines "a\nb\nc\nd\ne\nf\ng".toList).length / 3
        ∧ (∀ k, k < (feedLines "a\nb\nc\nd\ne\nf\ng".toList).length / 3 →
            ∃ l1 l2 l3, (feedLines "a\nb\nc\nd\ne\nf\ng".toList)[3 * k]? = some l1
              ∧ (feedLines "a\nb\nc\nd\ne\nf\ng".toList)[3 * k + 1]? = some l2
              ∧ (feedLines "a\nb\nc\nd\ne\nf\ng".toList)[3 * k + 2]? = some l3
              ∧ recs[k]? = some { from_ := l1, to_ := l2, body := l3 })
        ∧ (Worker.Reader 0 none).Run 3 (World.fresh "a\nb\nc\nd\ne\nf\ng".toList)
            = some ((forwardAll none recs
                (World.fresh "a\nb\nc\nd\ne\nf\ng".toList).outs).mapState
                fun o =>
                  { ins := Function.update (World.fresh "a\nb\nc\nd\ne\nf\ng".toList).ins 0 s1,
                    outs := o })
        ∧ ((forwardAll none recs (World.fresh "a\nb\nc\nd\ne\nf\ng".toList).outs).isReturned
              = true → s1 = drained)
        ∧ (Worker.Reader 0 none).Run 3 (World.fresh "a\nb\nc\nd\ne\nf\ng".toList)
            = some (.returned
                { ins := Function.update (World.fresh "a\nb\nc\nd\ne\nf\ng".toList).ins 0
                    drained,
                  outs := (World.fresh "a\nb\nc\nd\ne\nf\ng".toList).outs }) :=
  ⟨rfl, by decide,
    C6_reader_run "a\nb\nc\nd\ne\nf\ng".toList 0 none 3
      (World.fresh "a\nb\nc\nd\ne\nf\ng".toList) rfl (by decide)⟩

/-- C7: `Sender::Process(R)` appends to its output feed exactly the three
newline-terminated lines `R.from`, `R.to`, `R.body`, leaves every other feed alone, and
then forwards exactly `R`; so in a built chain with two Sinks next to each other, on
different feeds that no other Sink of the chain holds, a run adds the same text to both
feeds: the records arriving at the first of the two, framed. -/
theorem C7_sender_process (output : Nat) (next : Option Worker) (R : Email) (o : Outs)
    (in_ out1 out2 fuel : Nat) (pre post : List Append) (text : string) (w : World)
    (hne : out1 ≠ out2) (h1 : out1 ∉ sinkFeeds pre ++ sinkFeeds post)
    (h2 : out2 ∉ sinkFeeds pre ++ sinkFeeds post)
    (hin : w.ins in_ = istringstream text) (hfuel : (feedLines text).length / 3 < fuel) :
    (Worker.Sender output next).Process R o
        = forwardAll next [R]
            (Function.update o output
              (o output ++ (R.from_ ++ ['\n'] ++ (R.to_ ++ ['\n']) ++ (R.body ++ ['\n']))))
      ∧ ∃ w1, (PipelineBuilder.declare in_ (pre ++ .Send out1 :: .Send out2 :: post)).BuildAndRun
            fuel w = some (.returned w1)
        ∧ w1.outs out1
            = w.outs out1 ++ ((records (feedLines text)).flatMap (arrive pre)).flatMap frame
        ∧ w1.outs out2
            = w.outs out2 ++ ((records (feedLines text)).flatMap (arrive pre)).flatMap frame := by
  simp only [List.mem_append, not_or] at h1 h2
  constructor
  · rw [forwardAll_singleton]
    simp only [Worker.Process, writeLine_thrice]
    rfl
  · refine ⟨_, BuildAndRun_declare in_ _ fuel w text hin hfuel, ?_, ?_⟩
    · simp only []
      rw [commit_sink pre (.Send out2 :: post) out1 _ _ h1.1
        (by simp [sinkFeeds, hne, h1.2])]
    · have hsplit : pre ++ .Send out1 :: .Send out2 :: post
          = (pre ++ [.Send out1]) ++ .Send out2 :: post := by simp
      have hpre2 : out2 ∉ sinkFeeds (pre ++ [.Send out1]) := by
        simp [sinkFeeds_append, sinkFeeds, h2.1, Ne.symm hne]
      simp only []
      rw [hsplit, commit_sink (pre ++ [Append.Send out1]) post out2 _ _ hpre2 h2.2]
      congr 2
      apply List.flatMap_congr
      intro r _
      exact arrive_append_Send pre out1 r

/-- Witness of C7: one unit, two Sinks on the feeds `0` and `1` and nothing else. -/
theorem C7_sender_process_witness :
    (0 : Nat) ≠ 1
      ∧ 0 ∉ sinkFeeds [] ++ sinkFeeds []
      ∧ 1 ∉ sinkFeeds [] ++ sinkFeeds []
      ∧ (World.fresh "a\nb\nc\n".toList).ins 0 = istringstream "a\nb\nc\n".toList
      ∧ (feedLines "a\nb\nc\n".toList).length / 3 < 2
      ∧ ((Worker.Sender 0 none).Process { from_ := ['a'], to_ := ['b'], body := ['c'] }
            (fun _ => [])
          = forwardAll none [{ from_ := ['a'], to_ := ['b'], body := ['c'] }]
              (Function.update (fun _ => []) 0
                ([] ++ (['a'] ++ ['\n'] ++ (['b'] ++ ['\n']) ++ (['c'] ++ ['\n']))))
        ∧ ∃ w1, (PipelineBuilder.declare 0 ([] ++ .Send 0 :: .Send 1 :: [])).BuildAndRun 2
              (World.fresh "a\nb\nc\n".toList) = some (.returned w1)
          ∧ w1.outs 0 = (World.fresh "a\nb\nc\n".toList).outs 0
              ++ ((records (feedLines "a\nb\nc\n".toList)).flatMap (arrive [])).flatMap frame
          ∧ w1.outs 1 = (World.fresh "a\nb\nc\n".toList).outs 1
              ++ ((records (feedLines "a\nb\nc\n".toList)).flatMap (arrive [])).flatMap frame) :=
  ⟨by decide, by decide, by decide, rfl, by decide,
    C7_sender_process 0 none { from_ := ['a'], to_ := ['b'], body := ['c'] } (fun _ => [])
      0 0 1 2 [] [] "a\nb\nc\n".toList (World.fresh "a\nb\nc\n".toList)
      (by decide) (by decide) (by decide) rfl (by decide)⟩

/-- C8: `Run` on a Filter, Duplicate or Sink stage always ends in the `logic_error`
"Unimplemented", and so does `Process` on a Source, for every record, every successor and
every content of the feeds; the feeds are then as they were: nothing was forwarded and
nothing was written. -/
theorem C8_contract_violations (func : Email → Bool) (to_ : string) (output input : Nat)
    (next : Option Worker) (fuel : Nat) (w : World) (R : Email) (o : Outs) :
    (Worker.Filter func next).Run fuel w = some (.logic_error "Unimplemented" w)
      ∧ (Worker.Copier to_ next).Run fuel w = some (.logic_error "Unimplemented" w)
      ∧ (Worker.Sender output next).Run fuel w = some (.logic_error "Unimplemented" w)
      ∧ (Worker.Reader input next).Process R o = .logic_error "Unimplemented" o := by
  refine ⟨rfl, rfl, rfl, ?_⟩
  rw [Worker.Process]

/-- C9: on a Filter, Duplicate or Sink stage without successor `Process(R)` returns
normally for every record: the Filter and the Duplicate leave every feed as it was, and
the Sink has appended the three lines of `R` to its feed and changed no other. -/
theorem C9_no_successor (func : Email → Bool) (to_ : string) (output : Nat) (R : Email)
    (o : Outs) :
    (Worker.Filter func none).Process R o = .returned o
      ∧ (Worker.Copier to_ none).Process R o = .returned o
      ∧ (Worker.Sender output none).Process R o
        = .returned (Function.update o output
            (o output ++ (R.from_ ++ ['\n'] ++ (R.to_ ++ ['\n']) ++ (R.body ++ ['\n'])))) := by
  refine ⟨?_, ?_, ?_⟩
  · by_cases h : func R = true <;> simp [Worker.Process, PassOn, h]
  · by_cases h : R.to_ = to_ <;> simp [Worker.Process, PassOn, h]
  · simp only [Worker.Process, PassOn, writeLine_thrice]
    rfl

/-- C10: `Build()` on a builder to which nothing was appended returns the Source alone,
without successor; `Run()` on it over a fresh input feed of any content returns normally,
leaves the input stream drained (every character extracted) and every output feed as it
was. -/
theorem C10_degenerate_chain (in_ fuel : Nat) (text : string) (w : World)
    (hin : w.ins in_ = istringstream text) (hfuel : (feedLines text).length / 3 < fuel) :
    (PipelineBuilder.new in_).Build
        = some (some (.Reader in_ none), { workers := [none] })
      ∧ (Worker.Reader in_ none).next = none
      ∧ (Worker.Reader in_ none).successors = []
      ∧ (PipelineBuilder.new in_).BuildAndRun fuel w
        = some (.returned { ins := Function.update w.ins in_ drained, outs := w.outs })
      ∧ drained.buf = [] := by
  refine ⟨rfl, rfl, ?_, ?_, rfl⟩
  · simp [Worker.successors, chainFrom]
  · have hnone : ∀ rs : List Email, commit (rs.flatMap (writes [])) w.outs = w.outs := by
      intro rs
      induction rs with
      | nil => rfl
      | cons r rs ih => simpa [List.flatMap_cons, writes] using ih
    have hrun := BuildAndRun_declare in_ [] fuel w text hin hfuel
    rw [hnone] at hrun
    exact hrun

/-- Witness of C10: a feed of four lines, the last one without a newline. -/
theorem C10_degenerate_chain_witness :
    (World.fresh "a\nb\nc\nd".toList).ins 0 = istringstream "a\nb\nc\nd".toList
      ∧ (feedLines "a\nb\nc\nd".toList).length / 3 < 2
      ∧ ((PipelineBuilder.new 0).Build = some (some (.Reader 0 none), { workers := [none] })
        ∧ (Worker.Reader 0 none).next = none
        ∧ (Worker.Reader 0 none).successors = []
        ∧ (PipelineBuilder.new 0).BuildAndRun 2 (World.fresh "a\nb\nc\nd".toList)
          = some (.returned
              { ins := Function.update (World.fresh "a\nb\nc\nd".toList).ins 0 drained,
                outs := (World.fresh "a\nb\nc\nd".toList).outs })
        ∧ drained.buf = []) :=
  ⟨rfl, by decide,
    C10_degenerate_chain 0 2 "a\nb\nc\nd".toList (World.fresh "a\nb\nc\nd".toList) rfl
      (by decide)⟩

/-! ## A builder after `Build` -/

theorem BuildLoop_rest (todo : List (Option Worker)) (prev : Option Worker)
    (done l : List (Option Worker)) (hdone : ∀ x ∈ done, x = none)
    (h : PipelineBuilder.BuildLoop todo prev done = some l) :
    ∃ front rest, l = front :: rest ∧ ∀ x ∈ rest, x = none := by
  induction todo generalizing prev done with
  | nil =>
    simp only [PipelineBuilder.BuildLoop, Option.some.injEq] at h
    exact ⟨prev, done, h.symm, hdone⟩
  | cons it todo ih =>
    cases it with
    | none => simp [PipelineBuilder.BuildLoop] at h
    | some x =>
      simp only [PipelineBuilder.BuildLoop] at h
      refine ih _ (none :: done) ?_ h
      intro y hy
      rcases List.mem_cons.mp hy with rfl | hy
      · rfl
      · exact hdone y hy

/-- The list that `Build` leaves in the builder holds null pointers only. -/
theorem Build_leaves_null (b b1 : PipelineBuilder) (head : Option Worker)
    (h : b.Build = some (head, b1)) : ∀ x ∈ b1.workers, x = none := by
  unfold PipelineBuilder.Build at h
  cases hrev : b.workers.reverse with
  | nil => simp [hrev] at h
  | cons last todo =>
    simp only [hrev] at h
    cases hloop : PipelineBuilder.BuildLoop todo last [] with
    | none => simp [hloop] at h
    | some l =>
      obtain ⟨front, rest, hl, hrest⟩ := BuildLoop_rest todo last [] l (by simp) hloop
      subst hl
      simp only [hloop, Option.some.injEq, Prod.mk.injEq] at h
      obtain ⟨-, hb⟩ := h
      subst hb
      intro x hx
      rcases List.mem_cons.mp hx with rfl | hx
      · rfl
      · exact hrest x hx

/-- Counterexample to C11 as stated: on the builder that `Build()` leaves behind,
`FilterBy`, `CopyTo` and `Send` return normally, and the list has grown by the new stage. -/
theorem C11_counterexample :
    ∃ head b, (PipelineBuilder.new 0).Build = some (head, b)
      ∧ b.workers = [none]
      ∧ (b.FilterBy fun _ => true).workers = [none, some (.Filter (fun _ => true) none)]
      ∧ (b.CopyTo ['t']).workers = [none, some (.Copier ['t'] none)]
      ∧ (b.Send 0).workers = [none, some (.Sender 0 none)] :=
  ⟨some (.Reader 0 none), { workers := [none] }, rfl, rfl, rfl, rfl, rfl⟩

/-- C11, amended: after `Build()` has been called on a builder, a further append
operation (`FilterBy`, `CopyTo` or `Send`) signals nothing: it returns the builder with
the new stage appended to its list, behind the null pointers that `Build()` left there. -/
theorem C11_append_after_build (b b1 : PipelineBuilder) (head : Option Worker)
    (filter : Email → Bool) (recipient : string) (out : Nat)
    (h : b.Build = some (head, b1)) :
    (∀ x ∈ b1.workers, x = none)
      ∧ (b1.FilterBy filter).workers = b1.workers ++ [some (.Filter filter none)]
      ∧ (b1.CopyTo recipient).workers = b1.workers ++ [some (.Copier recipient none)]
      ∧ (b1.Send out).workers = b1.workers ++ [some (.Sender out none)] :=
  ⟨Build_leaves_null b b1 head h, rfl, rfl, rfl⟩

/-- Witness of C11: the builder of `TestSanity`, built, then extended. -/
theorem C11_append_after_build_witness :
    (PipelineBuilder.declare 0 [.FilterBy fun _ => true, .CopyTo ['t'], .Send 0]).Build
        = some (some (.Reader 0 (assemble
              ([Append.FilterBy fun _ => true, .CopyTo ['t'], .Send 0].map Append.stage))),
            { workers := List.replicate 4 none })
      ∧ ((∀ x ∈ (PipelineBuilder.mk (List.replicate 4 none)).workers, x = none)
        ∧ ((PipelineBuilder.mk (List.replicate 4 none)).FilterBy fun _ => false).workers
            = (PipelineBuilder.mk (List.replicate 4 none)).workers
              ++ [some (.Filter (fun _ => false) none)]
        ∧ ((PipelineBuilder.mk (List.replicate 4 none)).CopyTo ['u']).workers
            = (PipelineBuilder.mk (List.replicate 4 none)).workers
              ++ [some (.Copier ['u'] none)]
        ∧ ((PipelineBuilder.mk (List.replicate 4 none)).Send 1).workers
            = (PipelineBuilder.mk (List.replicate 4 none)).workers
              ++ [some (.Sender 1 none)]) :=
  ⟨rfl,
    C11_append_after_build
      (PipelineBuilder.declare 0 [.FilterBy fun _ => true, .CopyTo ['t'], .Send 0])
      (PipelineBuilder.mk (List.replicate 4 none)) _ (fun _ => false) ['u'] 1 rfl⟩

/-! ## Runs raise nothing and end -/

/-- Behind a successor that raises nothing, the loop of the reader raises nothing,
whatever the state of the stream and the bound. -/
theorem RunLoop_never_raises (next : Option Worker)
    (hP : ∀ r o, (PassOn next r o).isReturned = true) (fuel : Nat) (s : istream) (o : Outs)
    (p : istream × Outcome Outs) (h : Reader.RunLoop next fuel s o = some p) :
    p.2.isReturned = true := by
  induction fuel generalizing s o with
  | zero =>
    by_cases hb : s.toBool = true
    · simp [Reader.RunLoop, hb] at h
    · have hb0 : s.toBool = false := by simpa using hb
      rw [RunLoop_of_not_toBool next 0 s o hb0] at h
      cases h
      rfl
  | succ fuel ih =>
    by_cases hb : s.toBool = true
    · rw [RunLoop_succ next fuel s o hb] at h
      split at h
      · split at h
        · split at h
          · have hret := hP (Email.mk (getline s []).2 (getline (getline s []).1 []).2
                (getline (getline (getline s []).1 []).1 []).2) o
            split at h
            · exact ih _ _ h
            · rename_i heq
              rw [heq] at hret
              cases hret
          · exact ih _ _ h
        · exact ih _ _ h
      · exact ih _ _ h
    · have hb0 : s.toBool = false := by simpa using hb
      rw [RunLoop_of_not_toBool next _ s o hb0] at h
      cases h
      rfl

/-- A bound of no more iterations than whole units are left is reached: the loop needs
one iteration for every whole unit and one more. -/
theorem RunLoop_bound_reached (next : Option Worker)
    (hP : ∀ r o, (PassOn next r o).isReturned = true) (fuel : Nat) (s : istream) (o : Outs)
    (hb : s.toBool = true) (hfuel : fuel ≤ (records s.lines).length) :
    Reader.RunLoop next fuel s o = none := by
  induction fuel generalizing s o with
  | zero => simp [Reader.RunLoop, hb]
  | succ fuel ih =>
    cases hrec : records s.lines with
    | nil => rw [hrec] at hfuel; simp at hfuel
    | cons r rs =>
      obtain ⟨l1, l2, l3, rest, hl, hr0, hrs⟩ := records_cons_inv s.lines r rs hrec
      obtain ⟨hv1, hb1, -, hls1⟩ := getline_some s [] l1 _ hl
      obtain ⟨hv2, hb2, -, hls2⟩ := getline_some _ [] l2 _ hls1
      obtain ⟨hv3, hb3, -, hls3⟩ := getline_some _ [] l3 _ hls2
      rw [RunLoop_succ next fuel s o hb, if_pos hb1, if_pos hb2, if_pos hb3, hv1, hv2, hv3]
      have hret := hP (Email.mk l1 l2 l3) o
      cases hp : PassOn next { from_ := l1, to_ := l2, body := l3 } o with
      | returned o1 =>
        apply ih _ o1 hb3
        rw [hls3, ← hrs]
        rw [hrec] at hfuel
        simp only [List.length_cons] at hfuel
        omega
      | logic_error what o1 =>
        rw [hp] at hret
        cases hret

theorem PassOn_assemble_isReturned (ops : List Append) (r : Email) (o : Outs) :
    (PassOn (assemble (ops.map Append.stage)) r o).isReturned = true := by
  rw [PassOn_assemble]
  rfl

theorem stage_isReader (a : Append) : a.stage.isReader = false := by
  cases a <;> rfl

theorem isReader_SetNext (w : Worker) (n : Option Worker) :
    (w.SetNext n).isReader = w.isReader := by
  cases w <;> rfl

theorem chainFrom_assemble_isReader (ops : List Append) :
    ∀ s ∈ chainFrom (assemble (ops.map Append.stage)), s.isReader = false := by
  induction ops with
  | nil => simp [assemble, chainFrom]
  | cons a ops ih =>
    intro s hs
    simp only [List.map_cons, assemble, chainFrom, successors_eq, SetNext_next,
      List.mem_cons] at hs
    rcases hs with rfl | hs
    · rw [isReader_SetNext, stage_isReader]
    · exact ih s hs

theorem Run_Reader_never_raises (input : Nat) (next : Option Worker)
    (hP : ∀ r o, (PassOn next r o).isReturned = true) (fuel : Nat) (w : World)
    (what : String) (w1 : World) :
    (Worker.Reader input next).Run fuel w ≠ some (.logic_error what w1) := by
  intro h
  rw [Worker.Run] at h
  cases hloop : Reader.RunLoop next fuel (w.ins input) w.outs with
  | none => simp [hloop] at h
  | some p =>
    obtain ⟨s, r⟩ := p
    have hret := RunLoop_never_raises next hP fuel _ _ _ hloop
    cases r with
    | returned o1 => simp [hloop, Outcome.mapState] at h
    | logic_error what1 o1 => cases hret

theorem Run_declare (in_ : Nat) (ops : List Append) (fuel : Nat) (w : World)
    (text : string) (hin : w.ins in_ = istringstream text)
    (hfuel : (feedLines text).length / 3 < fuel) :
    (Worker.Reader in_ (assemble (ops.map Append.stage))).Run fuel w
      = some (.returned
          { ins := Function.update w.ins in_ drained,
            outs := commit ((records (feedLines text)).flatMap (writes ops)) w.outs }) := by
  have h := BuildAndRun_declare in_ ops fuel w text hin hfuel
  rw [PipelineBuilder.BuildAndRun, Build_declare] at h
  exact h

/-- C12: the chain that a single `Build()` returns after any append calls starts with a
Source and has no Source behind it; so `Process` is never delivered to a Source and
`Run` on the head never ends in a contract violation, whatever the input feed and the
bound on the loop, and over a fresh feed it returns. -/
theorem C12_no_contract_violation (in_ : Nat) (ops : List Append) (text : string)
    (w : World) (fuel : Nat) (hin : w.ins in_ = istringstream text)
    (hfuel : (feedLines text).length / 3 < fuel) :
    ∃ head rest, (PipelineBuilder.declare in_ ops).Build = some (some head, rest)
      ∧ head.isReader = true
      ∧ (∀ s ∈ head.successors, s.isReader = false)
      ∧ (∀ r o, (PassOn head.next r o).isReturned = true)
      ∧ (∀ fuel1 w1 what w2, head.Run fuel1 w1 ≠ some (.logic_error what w2))
      ∧ ∃ w2, head.Run fuel w = some (.returned w2) := by
  refine ⟨_, _, Build_declare in_ ops, rfl, ?_, ?_, ?_, _, Run_declare in_ ops fuel w text hin hfuel⟩
  · rw [successors_eq]
    exact chainFrom_assemble_isReader ops
  · exact PassOn_assemble_isReturned ops
  · intro fuel1 w1 what w2
    exact Run_Reader_never_raises in_ _ (PassOn_assemble_isReturned ops) fuel1 w1 what w2

/-- Witness of C12: the three kinds of stage over a feed of one unit. -/
theorem C12_no_contract_violation_witness :
    (World.fresh "a\nb\nc\n".toList).ins 0 = istringstream "a\nb\nc\n".toList
      ∧ (feedLines "a\nb\nc\n".toList).length / 3 < 2
      ∧ ∃ head rest,
          (PipelineBuilder.declare 0 [.FilterBy fun _ => true, .CopyTo ['t'], .Send 0]).Build
            = some (some head, rest)
        ∧ head.isReader = true
        ∧ (∀ s ∈ head.successors, s.isReader = false)
        ∧ (∀ r o, (PassOn head.next r o).isReturned = true)
        ∧ (∀ fuel1 w1 what w2, head.Run fuel1 w1 ≠ some (.logic_error what w2))
        ∧ ∃ w2, head.Run 2 (World.fresh "a\nb\nc\n".toList) = some (.returned w2) :=
  ⟨rfl, by decide,
    C12_no_contract_violation 0 [.FilterBy fun _ => true, .CopyTo ['t'], .Send 0]
      "a\nb\nc\n".toList (World.fresh "a\nb\nc\n".toList) 2 rfl (by decide)⟩

/-- C13: over a fresh finite feed of `n` lines, `Run()` on the head of a built chain
ends: a bound of `n / 3 + 1` iterations is enough for it to return, with the stream
drained, and no smaller bound is; an iteration in which a line read fails is the last
one, leaving the stream failed; and every `Process` call made on the way returns. -/
theorem C13_run_terminates (in_ : Nat) (ops : List Append) (text : string) (w : World)
    (hin : w.ins in_ = istringstream text) :
    (∀ fuel, (feedLines text).length / 3 + 1 ≤ fuel →
        ∃ w1, (PipelineBuilder.declare in_ ops).BuildAndRun fuel w = some (.returned w1)
          ∧ w1.ins in_ = drained)
      ∧ (∀ fuel, fuel ≤ (feedLines text).length / 3 →
          (PipelineBuilder.declare in_ ops).BuildAndRun fuel w = none)
      ∧ (∀ (s : istream) (o : Outs), s.toBool = true → s.regular → records s.lines = [] →
          Reader.RunLoop (assemble (ops.map Append.stage)) 1 s o
            = some (drained, .returned o))
      ∧ drained.toBool = false
      ∧ ∀ r o, PassOn (assemble (ops.map Append.stage)) r o
          = .returned (commit (writes ops r) o) := by
  refine ⟨?_, ?_, ?_, rfl, PassOn_assemble ops⟩
  · intro fuel hfuel
    refine ⟨_, BuildAndRun_declare in_ ops fuel w text hin (by omega), ?_⟩
    simp
  · intro fuel hfuel
    have hloop := RunLoop_bound_reached (assemble (ops.map Append.stage))
      (PassOn_assemble_isReturned ops) fuel (istringstream text) w.outs
      (istringstream_toBool text)
      (by rw [istringstream_lines, records_length]; exact hfuel)
    rw [PipelineBuilder.BuildAndRun, Build_declare]
    simp only [Worker.Run, hin, hloop]
  · intro s o hb hr hl
    exact RunLoop_no_unit _ 0 s o hb hr hl

/-- Witness of C13: a filter and a Sink over a feed of four lines. -/
theorem C13_run_terminates_witness :
    (World.fresh "a\nb\nc\nd\n".toList).ins 0 = istringstream "a\nb\nc\nd\n".toList
      ∧ ((∀ fuel, (feedLines "a\nb\nc\nd\n".toList).length / 3 + 1 ≤ fuel →
          ∃ w1, (PipelineBuilder.declare 0 [.FilterBy fun _ => true, .Send 0]).BuildAndRun fuel
                (World.fresh "a\nb\nc\nd\n".toList) = some (.returned w1)
            ∧ w1.ins 0 = drained)
        ∧ (∀ fuel, fuel ≤ (feedLines "a\nb\nc\nd\n".toList).length / 3 →
            (PipelineBuilder.declare 0 [.FilterBy fun _ => true, .Send 0]).BuildAndRun fuel
              (World.fresh "a\nb\nc\nd\n".toList) = none)
        ∧ (∀ (s : istream) (o : Outs), s.toBool = true → s.regular → records s.lines = [] →
            Reader.RunLoop
                (assemble ([Append.FilterBy fun _ => true, .Send 0].map Append.stage)) 1 s o
              = some (drained, .returned o))
        ∧ drained.toBool = false
        ∧ ∀ r o, PassOn (assemble ([Append.FilterBy fun _ => true, .Send 0].map Append.stage))
              r o
            = .returned (commit (writes [.FilterBy fun _ => true, .Send 0] r) o)) :=
  ⟨rfl,
    C13_run_terminates 0 [.FilterBy fun _ => true, .Send 0] "a\nb\nc\nd\n".toList
      (World.fresh "a\nb\nc\nd\n".toList) rfl⟩

/-! ## The framing, read and written back -/

theorem feedLines_unlines (text : List Char) (h : text = [] ∨ text.getLast? = some '\n') :
    (feedLines text).flatMap (fun l => l ++ ['\n']) = text := by
  induction text with
  | nil => rfl
  | cons c cs ih =>
    have hlast : (c :: cs).getLast? = some '\n' := by
      rcases h with h | h
      · cases h
      · exact h
    cases cs with
    | nil =>
      have hc : c = '\n' := by simpa using hlast
      subst hc
      simp [feedLines]
    | cons d ds =>
      have hlast1 : (d :: ds).getLast? = some '\n' := by
        rw [List.getLast?_cons_cons] at hlast
        exact hlast
      have ih1 := ih (Or.inr hlast1)
      by_cases hc : c = '\n'
      · rw [feedLines, if_pos hc, List.flatMap_cons, ih1, hc]
        rfl
      · rw [feedLines, if_neg hc]
        rw [(extractLine_feedLines d ds).1] at ih1 ⊢
        simp only [List.flatMap_cons, List.cons_append] at ih1 ⊢
        rw [ih1]

theorem records_frame (ls : List string) (h : ls.length % 3 = 0) :
    (records ls).flatMap frame = ls.flatMap fun l => l ++ ['\n'] := by
  match ls, h with
  | [], _ => rfl
  | [_], h => simp at h
  | [_, _], h => simp at h
  | l1 :: l2 :: l3 :: rest, h =>
    have hrest : rest.length % 3 = 0 := by
      simp only [List.length_cons] at h
      omega
    simp only [records, List.flatMap_cons, records_frame rest hrest, frame]
    simp

theorem arrive_nil_flatMap (rs : List Email) : rs.flatMap (arrive []) = rs := by
  induction rs with
  | nil => rfl
  | cons r rs ih => simp [List.flatMap_cons, arrive, ih]

/-- C14: over a fresh input feed whose number of lines is a multiple of three and whose
lines all end in a newline, the chain `PipelineBuilder(in).Send(out).Build()`, run once,
returns and appends to `out` exactly the input text. -/
theorem C14_round_trip (in_ out fuel : Nat) (text : string) (w : World)
    (hmult : (feedLines text).length % 3 = 0)
    (hterm : text = [] ∨ text.getLast? = some '\n')
    (hin : w.ins in_ = istringstream text) (hfuel : (feedLines text).length / 3 < fuel) :
    ∃ w1, ((PipelineBuilder.new in_).Send out).BuildAndRun fuel w = some (.returned w1)
      ∧ w1.outs out = w.outs out ++ text := by
  refine ⟨_, BuildAndRun_declare in_ [.Send out] fuel w text hin hfuel, ?_⟩
  have hsink := commit_sink [] [] out (records (feedLines text)) w.outs
    (by simp [sinkFeeds]) (by simp [sinkFeeds])
  simp only [List.nil_append] at hsink
  simp only []
  rw [hsink, arrive_nil_flatMap, records_frame _ hmult, feedLines_unlines text hterm]

/-- Witness of C14: two units, the second with an empty body. -/
theorem C14_round_trip_witness :
    (feedLines "a\nb\nc\nd\ne\n\n".toList).length % 3 = 0
      ∧ ("a\nb\nc\nd\ne\n\n".toList = []
          ∨ "a\nb\nc\nd\ne\n\n".toList.getLast? = some '\n')
      ∧ (World.fresh "a\nb\nc\nd\ne\n\n".toList).ins 0
          = istringstream "a\nb\nc\nd\ne\n\n".toList
      ∧ (feedLines "a\nb\nc\nd\ne\n\n".toList).length / 3 < 3
      ∧ ∃ w1, ((PipelineBuilder.new 0).Send 0).BuildAndRun 3
            (World.fresh "a\nb\nc\nd\ne\n\n".toList) = some (.returned w1)
          ∧ w1.outs 0
            = (World.fresh "a\nb\nc\nd\ne\n\n".toList).outs 0 ++ "a\nb\nc\nd\ne\n\n".toList :=
  ⟨by decide, by decide, rfl, by decide,
    C14_round_trip 0 0 3 "a\nb\nc\nd\ne\n\n".toList (World.fresh "a\nb\nc\nd\ne\n\n".toList)
      (by decide) (by decide) rfl (by decide)⟩

/-! ## What a Sink writes -/

/-- Counterexample to C15 as stated: the chains `Send(out)` and `Send(out).Send(out)`
have the same declared stages up to and including the first Sink, yet over the same feed
the output feed of that Sink holds the record once in the first run and twice in the
second, where the stages before the Sink produce it once. -/
theorem C15_counterexample :
    ((PipelineBuilder.declare 0 [.Send 0]).BuildAndRun 2
          (World.fresh "a\nb\nc\n".toList)).map (fun r => r.state.outs 0)
        = some "a\nb\nc\n".toList
      ∧ ((PipelineBuilder.declare 0 [.Send 0, .Send 0]).BuildAndRun 2
          (World.fresh "a\nb\nc\n".toList)).map (fun r => r.state.outs 0)
        = some "a\nb\nc\na\nb\nc\n".toList
      ∧ ((records (feedLines "a\nb\nc\n".toList)).flatMap (arrive [])).flatMap frame
        = "a\nb\nc\n".toList := by
  decide

/-- C15, amended: for two built chains with the same declared stages up to and including
a given Sink and any stages afterwards, when no other Sink of either chain holds the
output feed of that Sink, then over every fresh input feed that output feed has the same
content after both runs: what it held, followed by the records produced by the stages
before the Sink. -/
theorem C15_sink_independent (in_ out fuel : Nat) (pre post1 post2 : List Append)
    (text : string) (w : World) (hpre : out ∉ sinkFeeds pre)
    (hpost1 : out ∉ sinkFeeds post1) (hpost2 : out ∉ sinkFeeds post2)
    (hin : w.ins in_ = istringstream text) (hfuel : (feedLines text).length / 3 < fuel) :
    ∃ w1 w2,
      (PipelineBuilder.declare in_ (pre ++ .Send out :: post1)).BuildAndRun fuel w
          = some (.returned w1)
        ∧ (PipelineBuilder.declare in_ (pre ++ .Send out :: post2)).BuildAndRun fuel w
          = some (.returned w2)
        ∧ w1.outs out = w2.outs out
        ∧ w1.outs out
          = w.outs out ++ ((records (feedLines text)).flatMap (arrive pre)).flatMap frame := by
  refine ⟨_, _, BuildAndRun_declare in_ _ fuel w text hin hfuel,
    BuildAndRun_declare in_ _ fuel w text hin hfuel, ?_, ?_⟩
  · simp only []
    rw [commit_sink pre post1 out _ _ hpre hpost1, commit_sink pre post2 out _ _ hpre hpost2]
  · simp only []
    rw [commit_sink pre post1 out _ _ hpre hpost1]

/-- Witness of C15: a Sink behind a Duplicate stage, followed by nothing in one chain
and by a filter and a Sink on another feed in the other. -/
theorem C15_sink_independent_witness :
    0 ∉ sinkFeeds [.CopyTo ['t']]
      ∧ 0 ∉ sinkFeeds []
      ∧ 0 ∉ sinkFeeds [.FilterBy fun _ => false, .Send 1]
      ∧ (World.fresh "a\nb\nc\n".toList).ins 0 = istringstream "a\nb\nc\n".toList
      ∧ (feedLines "a\nb\nc\n".toList).length / 3 < 2
      ∧ ∃ w1 w2,
          (PipelineBuilder.declare 0 ([.CopyTo ['t']] ++ .Send 0 :: [])).BuildAndRun 2
              (World.fresh "a\nb\nc\n".toList) = some (.returned w1)
            ∧ (PipelineBuilder.declare 0
                ([.CopyTo ['t']] ++ .Send 0 :: [.FilterBy fun _ => false, .Send 1])).BuildAndRun 2
              (World.fresh "a\nb\nc\n".toList) = some (.returned w2)
            ∧ w1.outs 0 = w2.outs 0
            ∧ w1.outs 0 = (World.fresh "a\nb\nc\n".toList).outs 0
                ++ ((records (feedLines "a\nb\nc\n".toList)).flatMap
                    (arrive [.CopyTo ['t']])).flatMap frame :=
  ⟨by decide, by decide, by decide, rfl, by decide,
    C15_sink_independent 0 0 2 [.CopyTo ['t']] [] [.FilterBy fun _ => false, .Send 1]
      "a\nb\nc\n".toList (World.fresh "a\nb\nc\n".toList) (by decide) (by decide)
      (by decide) rfl (by decide)⟩

/-! ## Where written records come from -/

theorem writesAfter_erase (before ops : List Append) (r : Email) :
    (writesAfter before ops r).map (fun x => x.2) = writes ops r := by
  induction ops generalizing before r with
  | nil => rfl
  | cons a ops ih =>
    cases a with
    | FilterBy filter =>
      by_cases hf : filter r = true <;> simp [writesAfter, writes, hf, ih]
    | CopyTo recipient =>
      by_cases hc : r.to_ = recipient <;> simp [writesAfter, writes, hc, ih]
    | Send out => simp [writesAfter, writes, ih]

/-- Every write of a chain of declared stages is made by a `Send` stage of the chain, of
a record with the sender and body of the record that went in, addressed as that record
or to the target of a `CopyTo` stage declared before that `Send` stage. -/
theorem writesAfter_origin (before ops : List Append) (r : Email) :
    ∀ x ∈ writesAfter before ops r, ∃ mid post, x.1 = before ++ mid
      ∧ ops = mid ++ .Send x.2.1 :: post
      ∧ x.2.2.from_ = r.from_ ∧ x.2.2.body = r.body
      ∧ (x.2.2.to_ = r.to_ ∨ Append.CopyTo x.2.2.to_ ∈ mid) := by
  induction ops generalizing before r with
  | nil => intro x hx; simp [writesAfter] at hx
  | cons a ops ih =>
    intro x hx
    cases a with
    | FilterBy filter =>
      by_cases hf : filter r = true
      · simp only [writesAfter, hf, if_true] at hx
        obtain ⟨mid, post, h1, h2, h3, h4, h5⟩ := ih _ r x hx
        refine ⟨.FilterBy filter :: mid, post, by simp [h1], by simp [h2], h3, h4, ?_⟩
        rcases h5 with h5 | h5
        · exact Or.inl h5
        · exact Or.inr (List.mem_cons_of_mem _ h5)
      · simp [writesAfter, hf] at hx
    | CopyTo recipient =>
      have key : ∀ r1 : Email, r1.from_ = r.from_ → r1.body = r.body →
          (r1.to_ = r.to_ ∨ r1.to_ = recipient) →
          x ∈ writesAfter (before ++ [.CopyTo recipient]) ops r1 →
          ∃ mid post, x.1 = before ++ mid
            ∧ Append.CopyTo recipient :: ops = mid ++ .Send x.2.1 :: post
            ∧ x.2.2.from_ = r.from_ ∧ x.2.2.body = r.body
            ∧ (x.2.2.to_ = r.to_ ∨ Append.CopyTo x.2.2.to_ ∈ mid) := by
        intro r1 hfrom hbody hto hx1
        obtain ⟨mid, post, h1, h2, h3, h4, h5⟩ := ih _ r1 x hx1
        refine ⟨.CopyTo recipient :: mid, post, by simp [h1], by simp [h2],
          h3.trans hfrom, h4.trans hbody, ?_⟩
        rcases h5 with h5 | h5
        · rcases hto with hto | hto
          · exact Or.inl (h5.trans hto)
          · right
            rw [h5, hto]
            exact List.mem_cons_self _ _
        · exact Or.inr (List.mem_cons_of_mem _ h5)
      by_cases hc : r.to_ = recipient
      · simp only [writesAfter, hc, if_true] at hx
        exact key r rfl rfl (Or.inl rfl) (by simpa [hc] using hx)
      · simp only [writesAfter, hc, if_false, List.mem_append] at hx
        rcases hx with hx | hx
        · exact key r rfl rfl (Or.inl rfl) hx
        · exact key { r with to_ := recipient } rfl rfl (Or.inr rfl) hx
    | Send out =>
      simp only [writesAfter, List.mem_cons] at hx
      rcases hx with rfl | hx
      · exact ⟨[], ops, by simp, rfl, rfl, rfl, Or.inl rfl⟩
      · obtain ⟨mid, post, h1, h2, h3, h4, h5⟩ := ih _ r x hx
        refine ⟨.Send out :: mid, post, by simp [h1], by simp [h2], h3, h4, ?_⟩
        rcases h5 with h5 | h5
        · exact Or.inl h5
        · exact Or.inr (List.mem_cons_of_mem _ h5)

/-- C16: in a run of a built chain over a fresh feed, every record written at a Sink has
the sender and the body of some input record, and is addressed as that input record or
to the target of a Duplicate stage declared before that Sink.  The writes of the run are
listed one by one, each with the stages declared before the Sink that makes it. -/
theorem C16_sender_body_kept (in_ : Nat) (ops : List Append) (text : string) (w : World)
    (fuel : Nat) (hin : w.ins in_ = istringstream text)
    (hfuel : (feedLines text).length / 3 < fuel) :
    ∃ tr : List (List Append × Nat × Email),
      (PipelineBuilder.declare in_ ops).BuildAndRun fuel w
          = some (.returned
              { ins := Function.update w.ins in_ drained,
                outs := commit (tr.map fun x => x.2) w.outs })
        ∧ ∀ x ∈ tr, ∃ post, ops = x.1 ++ .Send x.2.1 :: post
            ∧ ∃ r ∈ records (feedLines text), x.2.2.from_ = r.from_ ∧ x.2.2.body = r.body
              ∧ (x.2.2.to_ = r.to_ ∨ Append.CopyTo x.2.2.to_ ∈ x.1) := by
  refine ⟨(records (feedLines text)).flatMap (writesAfter [] ops), ?_, ?_⟩
  · rw [BuildAndRun_declare in_ ops fuel w text hin hfuel, List.map_flatMap]
    simp only [writesAfter_erase]
  · intro x hx
    obtain ⟨r, hr, hxr⟩ := List.mem_flatMap.mp hx
    obtain ⟨mid, post, h1, h2, h3, h4, h5⟩ := writesAfter_origin [] ops r x hxr
    rw [List.nil_append] at h1
    rw [← h1] at h2 h5
    exact ⟨post, h2, r, hr, h3, h4, h5⟩

/-- Witness of C16: two Duplicate stages around a Sink, then a second Sink. -/
theorem C16_sender_body_kept_witness :
    (World.fresh "a\nb\nc\n".toList).ins 0 = istringstream "a\nb\nc\n".toList
      ∧ (feedLines "a\nb\nc\n".toList).length / 3 < 2
      ∧ ∃ tr : List (List Append × Nat × Email),
          (PipelineBuilder.declare 0
                [.CopyTo ['t'], .Send 0, .CopyTo ['u'], .Send 1]).BuildAndRun 2
              (World.fresh "a\nb\nc\n".toList)
            = some (.returned
                { ins := Function.update (World.fresh "a\nb\nc\n".toList).ins 0 drained,
                  outs := commit (tr.map fun x => x.2) (World.fresh "a\nb\nc\n".toList).outs })
          ∧ ∀ x ∈ tr, ∃ post,
              [Append.CopyTo ['t'], .Send 0, .CopyTo ['u'], .Send 1]
                  = x.1 ++ .Send x.2.1 :: post
              ∧ ∃ r ∈ records (feedLines "a\nb\nc\n".toList),
                  x.2.2.from_ = r.from_ ∧ x.2.2.body = r.body
                  ∧ (x.2.2.to_ = r.to_ ∨ Append.CopyTo x.2.2.to_ ∈ x.1) :=
  ⟨rfl, by decide,
    C16_sender_body_kept 0 [.CopyTo ['t'], .Send 0, .CopyTo ['u'], .Send 1]
      "a\nb\nc\n".toList (World.fresh "a\nb\nc\n".toList) 2 rfl (by decide)⟩

/-! ## Stages in a row -/

theorem forwardAll_append (next : Option Worker) (a b : List Email) (o : Outs) :
    forwardAll next (a ++ b) o
      = match forwardAll next a o with
        | .returned o1 => forwardAll next b o1
        | .logic_error what o1 => .logic_error what o1 := by
  induction a generalizing o with
  | nil => rfl
  | cons r a ih =>
    simp only [List.cons_append, forwardAll]
    cases PassOn next r o with
    | returned o1 => exact ih o1
    | logic_error what o1 => rfl

/-- A stage that forwards the records `f r` for every record `r` forwards, fed a list of
records, the records of the list mapped by `f`, in order. -/
theorem forwardAll_stage (stage : Worker) (next : Option Worker) (f : Email → List Email)
    (h : ∀ r o, stage.Process r o = forwardAll next (f r) o) (rs : List Email) (o : Outs) :
    forwardAll (some stage) rs o = forwardAll next (rs.flatMap f) o := by
  induction rs generalizing o with
  | nil => rfl
  | cons r rs ih =>
    rw [List.flatMap_cons, forwardAll_append, forwardAll, PassOn, h]
    cases forwardAll next (f r) o with
    | returned o1 => exact ih o1
    | logic_error what o1 => rfl

theorem Filter_Process (P : Email → Bool) (next : Option Worker) (r : Email) (o : Outs) :
    (Worker.Filter P next).Process r o = forwardAll next (if P r then [r] else []) o := by
  by_cases h : P r = true
  · simp [Worker.Process, h, forwardAll_singleton]
  · simp [Worker.Process, h, forwardAll]

theorem Copier_Process (t : string) (next : Option Worker) (r : Email) (o : Outs) :
    (Worker.Copier t next).Process r o = forwardAll next (duplicated t r) o := by
  by_cases h : r.to_ = t
  · simp [Worker.Process, h, duplicated, forwardAll_singleton]
  · simp only [Worker.Process, if_neg h, duplicated]
    rw [forwardAll]
    cases PassOn next r o with
    | returned o1 => simp [forwardAll_singleton]
    | logic_error what o1 => rfl

theorem forwardAll_Filter (P : Email → Bool) (next : Option Worker) (rs : List Email)
    (o : Outs) :
    forwardAll (some (.Filter P next)) rs o = forwardAll next (rs.filter P) o := by
  rw [forwardAll_stage _ next _ (Filter_Process P next)]
  congr 1
  induction rs with
  | nil => rfl
  | cons r rs ih =>
    rw [List.flatMap_cons, ih, List.filter_cons]
    by_cases h : P r = true <;> simp [h]

/-- C17: two filters in a row let through, of any sequence of records, those accepted by
both predicates, in their order, and so does one filter on the conjunction: the records
leaving `FilterBy(P).FilterBy(Q)`, `FilterBy(Q).FilterBy(P)` and `FilterBy(P and Q)` are
the same, for every successor. -/
theorem C17_filters_commute (P Q : Email → Bool) (next : Option Worker) (rs : List Email)
    (o : Outs) :
    forwardAll (some (.Filter P (some (.Filter Q next)))) rs o
        = forwardAll next (rs.filter fun r => P r && Q r) o
      ∧ forwardAll (some (.Filter Q (some (.Filter P next)))) rs o
        = forwardAll next (rs.filter fun r => P r && Q r) o
      ∧ forwardAll (some (.Filter (fun r => P r && Q r) next)) rs o
        = forwardAll next (rs.filter fun r => P r && Q r) o := by
  refine ⟨?_, ?_, forwardAll_Filter _ next rs o⟩
  · rw [forwardAll_Filter, forwardAll_Filter, List.filter_filter]
    congr 2
    funext r
    exact Bool.and_comm _ _
  · rw [forwardAll_Filter, forwardAll_Filter, List.filter_filter]

theorem duplicated_length (t : string) (rs : List Email) :
    (rs.flatMap (duplicated t)).length + (rs.filter fun r => r.to_ = t).length
      = 2 * rs.length := by
  induction rs with
  | nil => rfl
  | cons r rs ih =>
    rw [List.flatMap_cons, List.length_append, List.filter_cons]
    by_cases h : r.to_ = t
    · simp only [duplicated, h, if_true, decide_True, List.length_cons, List.length_nil]
      omega
    · simp only [duplicated, h, if_false, decide_False, List.length_cons, List.length_nil]
      simp only [Bool.false_eq_true, if_false]
      omega

theorem frame_length_pos (r : Email) : 0 < (frame r).length := by
  simp [frame]

theorem Sender_probe (out : Nat) (rs : List Email) (o : Outs) :
    forwardAll (some (.Sender out none)) rs o
      = .returned (commit (rs.flatMap (writes [.Send out])) o) :=
  forwardAll_assemble [.Send out] rs o

/-- C18: `CopyTo(t).CopyTo(t)` lets a record addressed to `t` through once and turns any
other record `R` into exactly three records, `R` followed by two equal copies addressed
to `t`, so that behind it a Sink writes more than behind a single `CopyTo(t)`; and a
single Duplicate stage fed `n` records, `k` of them addressed to its target, forwards
exactly `2n - k` records. -/
theorem C18_copy_twice (t : string) (next : Option Worker) (R : Email) (o : Outs)
    (rs : List Email) (out : Nat) (hne : R.to_ ≠ t) :
    (∀ R1 : Email, (Worker.Copier t (some (.Copier t next))).Process R1 o
        = forwardAll next
            (if R1.to_ = t then [R1]
              else [R1, { from_ := R1.from_, to_ := t, body := R1.body },
                { from_ := R1.from_, to_ := t, body := R1.body }]) o)
      ∧ (Worker.Copier t (some (.Copier t (some (.Sender out none))))).Process R o
          ≠ (Worker.Copier t (some (.Sender out none))).Process R o
      ∧ forwardAll (some (.Copier t next)) rs o = forwardAll next (rs.flatMap (duplicated t)) o
      ∧ (rs.flatMap (duplicated t)).length
          = 2 * rs.length - (rs.filter fun r => r.to_ = t).length := by
  refine ⟨?_, ?_, forwardAll_stage _ next _ (Copier_Process t next) rs o, ?_⟩
  · intro R1
    rw [Copier_Process, forwardAll_stage _ next _ (Copier_Process t next)]
    by_cases h : R1.to_ = t
    · simp [duplicated, h]
    · simp [duplicated, h]
  · rw [Copier_Process, forwardAll_stage _ _ _ (Copier_Process t _), Copier_Process,
      Sender_probe, Sender_probe]
    intro heq
    have hout := congrFun (Outcome.returned.inj heq) out
    rw [commit_apply_flatMap, commit_apply_flatMap] at hout
    have hlen := congrArg List.length (List.append_cancel_left hout)
    have hpos := frame_length_pos { from_ := R.from_, to_ := t, body := R.body }
    simp [duplicated, hne, writes, textFor] at hlen
    rw [hlen] at hpos
    exact Nat.lt_irrefl 0 hpos
  · have := duplicated_length t rs
    omega

/-- Witness of C18: a record addressed to `b`, copies addressed to `t`. -/
theorem C18_copy_twice_witness :
    ({ from_ := ['a'], to_ := ['b'], body := ['c'] } : Email).to_ ≠ ['t']
      ∧ ((∀ R1 : Email, (Worker.Copier ['t'] (some (.Copier ['t'] none))).Process R1 (fun _ => [])
          = forwardAll none
              (if R1.to_ = ['t'] then [R1]
                else [R1, { from_ := R1.from_, to_ := ['t'], body := R1.body },
                  { from_ := R1.from_, to_ := ['t'], body := R1.body }]) (fun _ => []))
        ∧ (Worker.Copier ['t'] (some (.Copier ['t'] (some (.Sender 0 none))))).Process
              { from_ := ['a'], to_ := ['b'], body := ['c'] } (fun _ => [])
            ≠ (Worker.Copier ['t'] (some (.Sender 0 none))).Process
              { from_ := ['a'], to_ := ['b'], body := ['c'] } (fun _ => [])
        ∧ forwardAll (some (.Copier ['t'] none))
              [{ from_ := ['a'], to_ := ['b'], body := ['c'] },
                { from_ := ['a'], to_ := ['t'], body := ['c'] }] (fun _ => [])
            = forwardAll none
              ([({ from_ := ['a'], to_ := ['b'], body := ['c'] } : Email),
                { from_ := ['a'], to_ := ['t'], body := ['c'] }].flatMap (duplicated ['t']))
              (fun _ => [])
        ∧ ([({ from_ := ['a'], to_ := ['b'], body := ['c'] } : Email),
              { from_ := ['a'], to_ := ['t'], body := ['c'] }].flatMap
              (duplicated ['t'])).length
            = 2 * [({ from_ := ['a'], to_ := ['b'], body := ['c'] } : Email),
                { from_ := ['a'], to_ := ['t'], body := ['c'] }].length
              - ([({ from_ := ['a'], to_ := ['b'], body := ['c'] } : Email),
                { from_ := ['a'], to_ := ['t'], body := ['c'] }].filter
                  fun r => r.to_ = ['t']).length) :=
  ⟨by decide,
    C18_copy_twice ['t'] none { from_ := ['a'], to_ := ['b'], body := ['c'] } (fun _ => [])
      [{ from_ := ['a'], to_ := ['b'], body := ['c'] },
        { from_ := ['a'], to_ := ['t'], body := ['c'] }] 0 (by decide)⟩

/-! ## The writes of one Sink -/

end Conveer
